import Mathlib

/-!
Verification of the captree spatial-indexing library (crate `pkdt`:
`src/pkdt/src/lib.rs` and `src/pkdt/src/affordance.rs`).

Modelling conventions.

Numbers: the source computes with IEEE-754 `f32`.  We model coordinate values
exactly, with no rounding, as dyadic rationals (`Dy`, an integer numerator and a
power-of-two denominator; every finite `f32` is such a number) extended with the
special values `nan`, `+inf` and `-inf` (`F`).  The special values follow the
IEEE rules the source relies on: comparisons involving `nan` are false,
`inf - inf = nan`, `inf + x = inf` for finite `x`, squaring maps both infinities
to `+inf`.  The `+inf` value matters because both trees pad their point arrays
with `(+inf, ..., +inf)` sentinel points.

Points: a point `[f32; D]` is a `List F` of length `D`.  Arrays indexed by a
dimension counter are modelled by structural recursion over such lists.

Trees: the source stores the split values in a flat breadth-first array `tests`
(node `i` has children `2i+1` and `2i+2`, leaves start at index `N2 - 1`).  We
build the recursion result as an inductive complete binary tree (`KdT`) and
recover the flat array as its breadth-first flattening (`testsArr`), proving the
index correspondence.  Query loops that walk the flat array are modelled
directly on the flat array, exactly following the source index arithmetic.

Sorting: the source sorts point slices with `sort_unstable_by` on a coordinate
(`partial_cmp(..).unwrap()`, which is a total comparison on the non-nan values
that occur).  We model it with a structural insertion sort by the same
comparison; the source leaves the order of equal keys unspecified, and the
stable order is one allowed outcome.

The crate functions `distsq` and `median_partition` are used by
`affordance.rs` but their defining file is not part of the given sources; they
are modelled from the spec where indicated.
-/

namespace Captree

/-- Exact dyadic rational `num / 2 ^ exp`: the value set of finite `f32`
numbers (ignoring range limits), with exact arithmetic in place of rounding. -/
structure Dy where
  num : Int
  exp : Nat
deriving DecidableEq

/-- Rational value denoted by a `Dy`. -/
def Dy.toQ (x : Dy) : ℚ := (x.num : ℚ) / 2 ^ x.exp

/-- Dyadic 0. -/
def Dy.zero : Dy := ⟨0, 0⟩

/-- Dyadic integer. -/
def Dy.ofInt (n : Int) : Dy := ⟨n, 0⟩

/-- Exact addition on dyadics. -/
def Dy.add (x y : Dy) : Dy := ⟨x.num * 2 ^ y.exp + y.num * 2 ^ x.exp, x.exp + y.exp⟩

/-- Exact negation on dyadics. -/
def Dy.neg (x : Dy) : Dy := ⟨-x.num, x.exp⟩

/-- Exact subtraction on dyadics. -/
def Dy.sub (x y : Dy) : Dy := x.add y.neg

/-- Exact multiplication on dyadics. -/
def Dy.mul (x y : Dy) : Dy := ⟨x.num * y.num, x.exp + y.exp⟩

/-- Exact halving on dyadics (the source only ever divides by `2.0`). -/
def Dy.half (x : Dy) : Dy := ⟨x.num, x.exp + 1⟩

/-- Absolute value on dyadics. -/
def Dy.abs (x : Dy) : Dy := ⟨|x.num|, x.exp⟩

/-- Value comparison, strict. -/
def Dy.blt (x y : Dy) : Bool := decide (x.num * 2 ^ y.exp < y.num * 2 ^ x.exp)

/-- Value comparison, non-strict. -/
def Dy.ble (x y : Dy) : Bool := decide (x.num * 2 ^ y.exp ≤ y.num * 2 ^ x.exp)

/-- Value equality (distinct representations may denote the same value). -/
def Dy.beq (x y : Dy) : Bool := decide (x.num * 2 ^ y.exp = y.num * 2 ^ x.exp)

/-- Model of an `f32` value: a finite dyadic, an infinity, or `nan`. -/
inductive F where
  | nan : F
  | neginf : F
  | posinf : F
  | fin : Dy → F
deriving DecidableEq

/-- IEEE strict less-than: false whenever either side is `nan`. -/
def F.lt : F → F → Bool
  | .nan, _ => false
  | _, .nan => false
  | .neginf, .neginf => false
  | .neginf, _ => true
  | _, .neginf => false
  | .posinf, _ => false
  | .fin _, .posinf => true
  | .fin a, .fin b => a.blt b

/-- IEEE less-or-equal: false whenever either side is `nan`. -/
def F.le : F → F → Bool
  | .nan, _ => false
  | _, .nan => false
  | .neginf, _ => true
  | _, .neginf => false
  | _, .posinf => true
  | .posinf, _ => false
  | .fin a, .fin b => a.ble b

/-- IEEE equality: `nan` is not equal to anything, including itself. -/
def F.eqb : F → F → Bool
  | .fin a, .fin b => a.beq b
  | .neginf, .neginf => true
  | .posinf, .posinf => true
  | _, _ => false

/-- IEEE negation. -/
def F.neg : F → F
  | .nan => .nan
  | .neginf => .posinf
  | .posinf => .neginf
  | .fin a => .fin a.neg

/-- IEEE addition (exact on finite values): `nan` absorbs, opposite infinities
give `nan`, an infinity absorbs finite values. -/
def F.add : F → F → F
  | .nan, _ => .nan
  | _, .nan => .nan
  | .posinf, .neginf => .nan
  | .neginf, .posinf => .nan
  | .posinf, _ => .posinf
  | _, .posinf => .posinf
  | .neginf, _ => .neginf
  | _, .neginf => .neginf
  | .fin a, .fin b => .fin (a.add b)

/-- IEEE subtraction, as `a + (-b)`. -/
def F.sub (a b : F) : F := a.add b.neg

/-- IEEE squaring (`powi(2)` in the source): both infinities square to
`+inf`, `nan` stays `nan`. -/
def F.sq : F → F
  | .nan => .nan
  | .posinf => .posinf
  | .neginf => .posinf
  | .fin a => .fin (a.mul a)

/-- IEEE absolute value. -/
def F.abs : F → F
  | .nan => .nan
  | .posinf => .posinf
  | .neginf => .posinf
  | .fin a => .fin a.abs

/-- IEEE halving (division by the constant `2.0`). -/
def F.half : F → F
  | .nan => .nan
  | .posinf => .posinf
  | .neginf => .neginf
  | .fin a => .fin a.half

/-- Mean of two values, `(a + b) / 2.0` as in the source median computation. -/
def F.avg (a b : F) : F := (a.add b).half

/-- Total Boolean comparison used to model `sort_unstable_by` with
`partial_cmp(..).unwrap()`.  On the values that actually occur (never `nan`,
since the `unwrap` would panic) it agrees with the IEEE order; `nan` is
totalised as the least element so the order is total and transitive. -/
def F.cmpLe : F → F → Bool
  | .nan, _ => true
  | _, .nan => false
  | .neginf, _ => true
  | _, .neginf => false
  | _, .posinf => true
  | .posinf, _ => false
  | .fin a, .fin b => a.ble b

/-- A point `[f32; D]`: a list of length `D` of coordinate values. -/
abbrev Pt := List F

/-- Coordinate access `p[d]`. -/
def coord (p : Pt) (d : Nat) : F := p.getD d .nan

/-- Array equality `a == b` on `[f32; D]`: componentwise IEEE equality. -/
def ptEqb : Pt → Pt → Bool
  | [], [] => true
  | x :: xs, y :: ys => F.eqb x y && ptEqb xs ys
  | _, _ => false

/-- The padding sentinel point `[f32::INFINITY; D]`. -/
def pad (D : Nat) : Pt := List.replicate D .posinf

/-- Modelled from the spec: the crate function `distsq` (used by
`affordance.rs`, not present in the given sources) is the squared euclidean
distance, with no square root: the sum over coordinates of the squared
componentwise difference.  The source folds the sum left-to-right from `0.0`;
with exact arithmetic the grouping is immaterial and we recurse structurally. -/
def distsq : Pt → Pt → F
  | a :: as_, b :: bs => ((a.sub b).sq).add (distsq as_ bs)
  | _, _ => .fin .zero

/-- Scalar clamp from `affordance.rs`: `if x < min then min else if x > max
then max else x`. -/
def clamp (x min max : F) : F :=
  if x.lt min then min else if max.lt x then max else x

/-- A prismatic bounding volume (`Volume` in `affordance.rs`). -/
structure Volume where
  lower : Pt
  upper : Pt

/-- Componentwise clamp of a query point into a volume
(`Volume::closest_point`). -/
def closestPt : Pt → Pt → Pt → Pt
  | q :: qs, l :: ls, u :: us => clamp q l u :: closestPt qs ls us
  | _, _, _ => []

/-- Structure-level `Volume::closest_point`. -/
def Volume.closest_point (v : Volume) (q : Pt) : Pt := closestPt q v.lower v.upper

/-- Squared distance from a point to a volume (`Volume::distsq_to`): the point
is clamped into the volume and the squared distance of the clamp to the point
is returned (the source computes `distsq(p2, *point)` with `p2` the clamp). -/
def Volume.distsq_to (v : Volume) (p : Pt) : F := distsq (v.closest_point p) p

/-- One axis of `Volume::furthest_distsq_to`: with `lo_diff = |lower - p|` and
`hi_diff = |upper - p|`, the contribution is the square of
`if lo_diff < hi_diff then hi_diff else lo_diff`. -/
def furthestAxis (p l u : F) : F :=
  (if ((l.sub p).abs).lt ((u.sub p).abs) then (u.sub p).abs else (l.sub p).abs).sq

/-- Sum of the per-axis furthest contributions. -/
def furthestGo : Pt → Pt → Pt → F
  | p :: ps, l :: ls, u :: us => (furthestAxis p l u).add (furthestGo ps ls us)
  | _, _, _ => .fin .zero

/-- Squared distance from a point to the farthest corner of a volume
(`Volume::furthest_distsq_to`). -/
def Volume.furthest_distsq_to (v : Volume) (p : Pt) : F := furthestGo p v.lower v.upper

/-- Splitting a volume at plane `axis = test` (`Volume::split`): the low child
keeps the lower bounds and caps `upper[dim]` at `test`, the high child raises
`lower[dim]` to `test`. -/
def Volume.split (v : Volume) (test : F) (dim : Nat) : Volume × Volume :=
  (⟨v.lower, v.upper.set dim test⟩, ⟨v.lower.set dim test, v.upper⟩)

/-- Insertion of an element into a sorted list, for the sort model. -/
def insertSorted {α : Type} (le : α → α → Bool) (x : α) : List α → List α
  | [] => [x]
  | y :: ys => if le x y then x :: y :: ys else y :: insertSorted le x ys

/-- Structural insertion sort, the model of `sort_unstable_by`. -/
def sortBy {α : Type} (le : α → α → Bool) : List α → List α
  | [] => []
  | x :: xs => insertSorted le x (sortBy le xs)

/-- Comparison of two points on one coordinate, the comparator
`a[d].partial_cmp(&b[d]).unwrap()` passed to the sorts. -/
def ptLe (d : Nat) (a b : Pt) : Bool := F.cmpLe (coord a d) (coord b d)

/-- Fuel-driven loop for the base-2 ceiling logarithm. -/
def clog2Go : Nat → Nat → Nat
  | 0, _ => 0
  | fuel + 1, m => if m ≤ 1 then 0 else clog2Go fuel ((m + 1) / 2) + 1

/-- Ceiling base-2 logarithm: the least `k` with `n ≤ 2 ^ k`.  Computes
structurally so that concrete trees evaluate inside the kernel.  The source
obtains `2 ^ clog2 n` as `n.next_power_of_two()` (which maps `0` to `1`). -/
def clog2 (n : Nat) : Nat := clog2Go n n

/-- Fuel-driven loop for the base-2 floor logarithm. -/
def log2Go : Nat → Nat → Nat
  | 0, _ => 0
  | fuel + 1, m => if m ≤ 1 then 0 else log2Go fuel (m / 2) + 1

/-- Floor base-2 logarithm, the model of `usize::ilog2` (and, on the power-of-
two tree sizes that occur, of `usize::trailing_zeros`).  Structural so that
concrete queries evaluate inside the kernel. -/
def log2 (n : Nat) : Nat := log2Go n n

/-- The input point list padded with `(+inf, ..., +inf)` sentinels up to the
next power of two, as both constructors do. -/
def padded (D : Nat) (ps : List Pt) : List Pt :=
  ps ++ List.replicate (2 ^ clog2 ps.length - ps.length) (pad D)

/-- Complete binary tree of split values with payloads of type `α` at the
leaves.  This is the logical shape of the flat breadth-first `tests` array of
the source: the root of a subtree at array index `i` holds `tests[i]` and its
children sit at `2i+1` and `2i+2`; `testsArr` recovers exactly that array. -/
inductive KdT (α : Type) where
  | leaf : α → KdT α
  | node : F → KdT α → KdT α → KdT α

/-- Breadth-first levels of the split values of a tree. -/
def testsLevels {α : Type} : KdT α → List (List F)
  | .leaf _ => []
  | .node t l r => [t] :: List.zipWith (· ++ ·) (testsLevels l) (testsLevels r)

/-- The flat breadth-first `tests` array of a tree. -/
def testsArr {α : Type} (t : KdT α) : List F := (testsLevels t).flatten

/-- Leaf payloads of a tree, left to right: leaf `i` of the source sits at
array position `i`. -/
def leavesT {α : Type} : KdT α → List α
  | .leaf a => [a]
  | .node _ l r => leavesT l ++ leavesT r

/-- A complete binary tree of uniform depth `k`. -/
inductive Perfect {α : Type} : KdT α → Nat → Prop where
  | leaf (a : α) : Perfect (.leaf a) 0
  | node (t : F) (l r : KdT α) (k : Nat) :
      Perfect l k → Perfect r k → Perfect (.node t l r) (k + 1)

/-- Recursive build of the PKDT (`recur_sort_points` in `lib.rs`): sort the
slice by coordinate `d`, write the mean of the two middle coordinates as the
split value, and recurse on the two halves with the next coordinate.  The
structural depth argument `k` is the recursion depth `clog2 n`; on the
power-of-two slice lengths produced by padding it is exactly the depth at
which the slice length reaches 1, where the source recursion stops. -/
def buildKd (D : Nat) : Nat → List Pt → Nat → KdT Pt
  | 0, pts, _ => .leaf (pts.headD (pad D))
  | k + 1, pts, d =>
    if pts.length ≤ 1 then .leaf (pts.headD (pad D)) else
      let s := sortBy (ptLe d) pts
      let t := F.avg (coord (s.getD (pts.length / 2 - 1) []) d)
                     (coord (s.getD (pts.length / 2) []) d)
      .node t (buildKd D k (s.take (pts.length / 2)) ((d + 1) % D))
              (buildKd D k (s.drop (pts.length / 2)) ((d + 1) % D))

/-- A built PKDT: the split-value tree whose leaves carry the permuted points.
The source stores the leaf points transposed (`points[c * N2 + i]` is
coordinate `c` of leaf `i`) purely for gather efficiency; the model keeps the
same abstract content as a list of points indexed by leaf. -/
structure PkdTree (D : Nat) where
  tree : KdT Pt

/-- Construction `PkdTree::new`: pad the inputs with `+inf` sentinels to the
next power of two and run the recursive sort. -/
def PkdTree.new (D : Nat) (ps : List Pt) : PkdTree D :=
  ⟨buildKd D (clog2 ps.length) (padded D ps) 0⟩

/-- The flat `tests` array of a built tree. -/
def PkdTree.tests {D : Nat} (t : PkdTree D) : List F := testsArr t.tree

/-- The leaf points of a built tree, by leaf index. -/
def PkdTree.points {D : Nat} (t : PkdTree D) : List Pt := leavesT t.tree

/-- Point lookup `PkdTree::get_point`. -/
def PkdTree.get_point {D : Nat} (t : PkdTree D) (id : Nat) : Pt :=
  t.points.getD id []

/-- One step of the descent loop shared by all queries: from node index `idx`
at loop counter `i`, move to `2 * idx + 1` when `needle[i % D] < tests[idx]`
and to `2 * idx + 2` otherwise. -/
def descendStep (D : Nat) (tests : List F) (needle : Pt) (i idx : Nat) : Nat :=
  2 * idx + (if (coord needle (i % D)).lt (tests.getD idx .nan) then 1 else 2)

/-- The descent loop on the flat `tests` array: `count` iterations starting at
loop counter `i` and node index `idx`. -/
def descendLoop (D : Nat) (tests : List F) (needle : Pt) : Nat → Nat → Nat → Nat
  | _, idx, 0 => idx
  | i, idx, count + 1 =>
    descendLoop D tests needle (i + 1) (descendStep D tests needle i idx) count

/-- Scalar approximate query `PkdTree::query1`: run the descent for
`ilog2(N2)` steps from the root and subtract `tests.len()` to obtain the leaf
index. -/
def PkdTree.query1 {D : Nat} (t : PkdTree D) (needle : Pt) : Nat :=
  descendLoop D t.tests needle 0 0 (log2 (t.tests.length + 1)) - t.tests.length

/-- The SIMD descent loop of `PkdTree::query`: every lane holds its own node
index, and one loop iteration advances every lane by one `descendStep` (the
gather reads `tests[idx]` in each lane). -/
def descendLoopSimd (D : Nat) (tests : List F) : Nat → List (Pt × Nat) → Nat → List (Pt × Nat)
  | _, lanes, 0 => lanes
  | i, lanes, count + 1 =>
    descendLoopSimd D tests (i + 1)
      (lanes.map fun l => (l.1, descendStep D tests l.1 i l.2)) count

/-- SIMD approximate query `PkdTree::query`: all lanes descend in lockstep for
`ilog2(N2)` steps, then `tests.len()` is subtracted lane-wise. -/
def PkdTree.query {D : Nat} (t : PkdTree D) (needles : List Pt) : List Nat :=
  (descendLoopSimd D t.tests 0 (needles.map fun n => (n, 0))
    (log2 (t.tests.length + 1))).map fun l => l.2 - t.tests.length

/-- Loop body of `PkdTree::query1_exact`, modelled on the flat arrays with a
fuel argument for the `while` loop (the source loop terminates because the
best distance strictly decreases at every restart; `none` on fuel exhaustion,
which adequate fuel makes unreachable, and on the internal assertion).

The source keeps the euclidean best distance `distance = dist(..)`
(`dist` takes a square root) and compares `(needle[d] - tests[idx]).abs() <
distance` and `new_distance < distance`.  The model carries the squared
distance `dsq` instead and compares `(needle[d] - tests[idx])^2 < dsq` and
`new_dsq < dsq`: for the values that occur (`|a|` and `distance`
non-negative) these are equivalent to the source comparisons, exactly in real
arithmetic. -/
def query1ExactGo (D : Nat) (tests : List F) (points : List Pt) (needle : Pt) :
    Nat → Nat → Nat → F → Nat → Option Nat
  | 0, _, _, _, _ => none
  | fuel + 1, guess, test_idx, dsq, i =>
    if test_idx = 0 then some guess else
      let parent := (test_idx + 1) / 2 - 1
      if 2 * parent + 1 = test_idx ∨ 2 * parent + 2 = test_idx then
        if (((coord needle (i % D)).sub (tests.getD parent .nan)).sq).lt dsq then
          let newidx0 := 2 * parent + 1 + test_idx % 2
          if newidx0 = test_idx then none else
            let log := log2 (tests.length + 1)
            let newidx := descendLoop D tests needle (log - i) newidx0 i
            let newguess := newidx - tests.length
            let ndsq := distsq (points.getD newguess []) needle
            if ndsq.lt dsq then
              query1ExactGo D tests points needle fuel newguess newidx ndsq 0
            else
              query1ExactGo D tests points needle fuel guess parent dsq (i + 1)
        else
          query1ExactGo D tests points needle fuel guess parent dsq (i + 1)
      else none

/-- Exact nearest query `PkdTree::query1_exact`: start from the approximate
`query1` leaf and walk back up, re-descending into a sibling subtree whenever
the needle is closer to the ancestor split plane than the current best
distance.  The initial best distance is the distance to the `query1` point. -/
def PkdTree.query1_exact {D : Nat} (t : PkdTree D) (needle : Pt) : Option Nat :=
  let g := t.query1 needle
  query1ExactGo D t.tests t.points needle
    ((t.points.length + 2) * (log2 (t.tests.length + 1) + 2))
    g (g + t.tests.length) (distsq (t.get_point g) needle) 0

/-- Modelled from the spec: the crate function `median_partition` (used by
`affordance.rs`, not present in the given sources) rearranges a point slice
along one axis so that the lower half holds points at most the split value and
the upper half points at least it, and returns the split value.  The spec
allows the split value to be the median coordinate or the mean of the two
middle coordinates; we model the rearrangement as sorting by the coordinate
(one allowed outcome of the randomized quickselect) and the split value as the
mean of the two middle coordinates, the same policy `PkdTree::new` uses. -/
def median_partition (pts : List Pt) (d : Nat) : List Pt × F :=
  let s := sortBy (ptLe d) pts
  (s, F.avg (coord (s.getD (pts.length / 2 - 1) []) d)
            (coord (s.getD (pts.length / 2) []) d))

/-- The retain predicate applied to the inherited candidate set at a leaf cell
of `build_tree` in `affordance.rs`: with `closest` the clamp of the candidate
into the cell volume, keep the candidate iff it is not the cell center, it can
reach into the cell at the maximum legal radius, it is closer to the cell than
the center is to the farthest corner, and the center is farther than the
minimum legal radius from its clamp. -/
def leafRetain (rsq : F × F) (vol : Volume) (c : Pt) (pt : Pt) : Bool :=
  let closest := vol.closest_point pt
  let center_dist := distsq c closest
  let closest_dist := distsq pt closest
  !(ptEqb c pt) && closest_dist.lt rsq.2
    && closest_dist.lt (vol.furthest_distsq_to c)
    && rsq.1.lt center_dist

/-- The filter applied to the candidate set for one child volume at an
internal node of `build_tree`: keep a candidate iff the child volume's
farthest corner is beyond the minimum legal radius and the candidate is
within the maximum legal radius of the child volume. -/
def nodeRetain (rsq : F × F) (vol : Volume) (pt : Pt) : Bool :=
  rsq.1.lt (vol.furthest_distsq_to pt) && (vol.distsq_to pt).lt rsq.2

/-- The affordance list written for one leaf: the retained candidates with the
cell center pushed at the back and then swapped to the front
(`push(cell_center)` followed by `swap(0, l - 1)`), so the list is the center
followed by the retained candidates with their first element rotated to the
back. -/
def leafList (rsq : F × F) (vol : Volume) (c : Pt) (cands : List Pt) : List Pt :=
  match cands.filter (leafRetain rsq vol c) with
  | [] => [c]
  | r1 :: rest => c :: (rest ++ [r1])

/-- Recursive affordance build (`build_tree` in `affordance.rs`): at an
internal node, split via `median_partition`, split the volume at the split
value, filter the candidate set once per child with `nodeRetain`, and recurse;
at a leaf, write the affordance list of the sole point of the slice.  The
leaves of the resulting tree are the per-leaf affordance lists in leaf order:
flattening them yields the source `points` buffer and their running lengths
the source `aff_starts` array.  The structural depth argument `k` plays the
same role as in `buildKd`. -/
def buildAff (D : Nat) (rsq : F × F) : Nat → List Pt → Nat → List Pt → Volume → KdT (List Pt)
  | 0, pts, _, cands, vol => .leaf (leafList rsq vol (pts.headD (pad D)) cands)
  | k + 1, pts, d, cands, vol =>
    if pts.length ≤ 1 then .leaf (leafList rsq vol (pts.headD (pad D)) cands) else
      let m := median_partition pts d
      let vols := vol.split m.2 d
      .node m.2
        (buildAff D rsq k (m.1.take (pts.length / 2)) ((d + 1) % D)
          (cands.filter (nodeRetain rsq vols.1)) vols.1)
        (buildAff D rsq k (m.1.drop (pts.length / 2)) ((d + 1) % D)
          (cands.filter (nodeRetain rsq vols.2)) vols.2)

/-- A built affordance tree: the split-value tree whose leaves carry the
per-leaf affordance lists, together with the declared squared-radius range. -/
structure AffordanceTree (D : Nat) where
  tree : KdT (List Pt)
  rsq_range : F × F

/-- Construction `AffordanceTree::new`: `assert!(D < u8::MAX)` (modelled as
the `none` case), pad the points with `+inf` sentinels to the next power of
two, and run `build_tree` from the all-space volume with the padded points
(in input order) as the root candidate set.  The source construction has no
other failure path: it returns a tree for every point slice. -/
def AffordanceTree.new (D : Nat) (ps : List Pt) (rsq : F × F) : Option (AffordanceTree D) :=
  if D < 255 then
    some ⟨buildAff D rsq (clog2 ps.length) (padded D ps) 0 (padded D ps)
            ⟨List.replicate D .neginf, List.replicate D .posinf⟩, rsq⟩
  else none

/-- The per-leaf affordance lists of a built tree, by leaf index. -/
def AffordanceTree.aff_lists {D : Nat} (t : AffordanceTree D) : List (List Pt) :=
  leavesT t.tree

/-- The packed affordance buffer `points` of a built tree. -/
def AffordanceTree.points {D : Nat} (t : AffordanceTree D) : List Pt :=
  t.aff_lists.flatten

/-- Start offsets of consecutive lists inside their flattening: the
`aff_starts` array (one entry per leaf plus the final total length). -/
def startsOf (ls : List (List Pt)) : List Nat :=
  (List.range (ls.length + 1)).map fun i => (((ls.take i).map List.length).sum)

/-- The `aff_starts` array of a built tree. -/
def AffordanceTree.aff_starts {D : Nat} (t : AffordanceTree D) : List Nat :=
  startsOf t.aff_lists

/-- The affordance slice `points[aff_starts[i] .. aff_starts[i + 1]]` of leaf
`i`. -/
def AffordanceTree.affSlice {D : Nat} (t : AffordanceTree D) (i : Nat) : List Pt :=
  (t.points.drop (t.aff_starts.getD i 0)).take
    (t.aff_starts.getD (i + 1) 0 - t.aff_starts.getD i 0)

/-- Scalar query `AffordanceTree::collides`: `none` models the panic of the
two range assertions; otherwise descend the flat `tests` array exactly as
`query1` does (the loop bound `trailing_zeros` equals `ilog2` on the
power-of-two `N2`), read the affordance slice of the reached leaf, and scan it
for a point within squared distance `r_squared` of the center. -/
def AffordanceTree.collides {D : Nat} (t : AffordanceTree D) (center : Pt)
    (r_squared : F) : Option Bool :=
  if !(t.rsq_range.1.le r_squared) then none
  else if !(r_squared.le t.rsq_range.2) then none
  else
    let tests := testsArr t.tree
    let idx := descendLoop D tests center 0 0 (log2 (tests.length + 1))
    some ((t.affSlice (idx - tests.length)).any fun pt => (distsq pt center).le r_squared)

/-- One lane of the SIMD affordance scan: the remaining affordance slice, the
lane's active bit, its query center, and its squared radius. -/
structure ScanLane where
  rem : List Pt
  active : Bool
  center : Pt
  rsq : F

/-- The gather-and-compare loop of `AffordanceTree::collides_simd`, with a
fuel argument for the `while inbounds.any()` loop.  Each iteration gathers,
for every lane, the coordinates of the lane's current affordance point —
masked by the active bit, with the lane's own center as the `or` value of
`gather_select_ptr`, so an inactive lane contributes the difference of the
center with itself — accumulates the squared differences, returns `true` as
soon as any lane's accumulated value is strictly below its squared radius,
then advances every lane pointer and clears the active bit of lanes whose
pointer reached the end of their slice. -/
def simdScanGo : Nat → List ScanLane → Bool
  | 0, _ => false
  | fuel + 1, lanes =>
    if lanes.all fun l => !l.active then false
    else if lanes.any fun l =>
        (if l.active then distsq l.center (l.rem.headD []) else distsq l.center l.center).lt l.rsq
      then true
    else
      simdScanGo fuel (lanes.map fun l =>
        ⟨l.rem.tail, l.active && !l.rem.tail.isEmpty, l.center, l.rsq⟩)

/-- SIMD query `AffordanceTree::collides_simd`: each lane is a query center
with its own squared radius.  All lanes descend the flat `tests` array in
lockstep exactly as the scalar query does, each lane then gathers the bounds
of its leaf's affordance slice from `aff_starts`, and the lanes scan their
slices in lockstep with an active-lane mask.  (The source addresses the
buffer by flat `f32` pointers scaled by `D`; the model keeps the equivalent
point-at-a-time view.)  The per-lane squared radii are documented to lie in
the declared range; unlike the scalar query, no assertion checks them. -/
def AffordanceTree.collides_simd {D : Nat} (t : AffordanceTree D)
    (lanes : List (Pt × F)) : Bool :=
  let tests := testsArr t.tree
  let states := lanes.map fun l =>
    let idx := descendLoop D tests l.1 0 0 (log2 (tests.length + 1))
    ScanLane.mk (t.affSlice (idx - tests.length)) true l.1 l.2
  simdScanGo (t.points.length + 1) states

/-- Memory accounting `AffordanceTree::memory_used`, with the source constant
`size_of::<AffordanceTree<D>>()` abstracted as a header constant and the two
element sizes (`f32`, `usize`) kept symbolic. -/
def AffordanceTree.memory_used {D : Nat} (t : AffordanceTree D)
    (header szf32 szusize : Nat) : Nat :=
  header + (t.points.length * D + (testsArr t.tree).length) * szf32
    + t.aff_starts.length * szusize

/-- Average affordance-list length `AffordanceTree::affordance_size`. -/
def AffordanceTree.affordance_size {D : Nat} (t : AffordanceTree D) : Nat :=
  t.points.length / ((testsArr t.tree).length + 1)

/-- Root split value of a tree (unused default at leaves). -/
def rootTest {α : Type} : KdT α → F
  | .leaf _ => .nan
  | .node t _ _ => t

/-- Child selector: `0` is the low child, anything else the high child. -/
def childAt {α : Type} (c : Nat) : KdT α → KdT α
  | .leaf a => .leaf a
  | .node _ l r => if c = 0 then l else r

/-- The subtree reached from the root by the length-`j` path written in the
binary digits of `b` (most significant digit first): the subtree whose root
sits at flat array index `2 ^ j - 1 + b`. -/
def subtreeAt {α : Type} : KdT α → Nat → Nat → KdT α
  | t, 0, _ => t
  | .leaf a, _ + 1, _ => .leaf a
  | .node _ l r, j + 1, b =>
    if b < 2 ^ j then subtreeAt l j b else subtreeAt r j (b - 2 ^ j)

/-- Leaf payload of a tree that is a leaf (default otherwise). -/
def leafVal {α : Type} (dflt : α) : KdT α → α
  | .leaf a => a
  | .node _ _ _ => dflt

/-- Structural form of the descent: at a node compare `needle[i % D]` with
the split value and enter the matching child; return the payload of the leaf
reached. -/
def descendLeaf (D : Nat) {α : Type} : KdT α → Pt → Nat → α
  | .leaf a, _, _ => a
  | .node t l r, x, i =>
    if (coord x (i % D)).lt t then descendLeaf D l x (i + 1)
    else descendLeaf D r x (i + 1)

/-- Leaf index (position among the leaves, left to right) of the leaf the
structural descent reaches. -/
def descendIdx (D : Nat) {α : Type} : KdT α → Pt → Nat → Nat
  | .leaf _, _, _ => 0
  | .node t l r, x, i =>
    if (coord x (i % D)).lt t then descendIdx D l x (i + 1)
    else (leavesT l).length + descendIdx D r x (i + 1)

/-- Whether a value is finite (neither `nan` nor an infinity). -/
def isFinB : F → Bool
  | .fin _ => true
  | _ => false

/-- Whether every coordinate of a point is finite. -/
abbrev ptFinite (p : Pt) : Prop := p.all isFinB = true

/-- Pointwise containment of a point between a lower and an upper bound
list: membership of the point in the closed box (the three lists aligned). -/
def inVolP : Pt → Pt → Pt → Prop
  | [], [], [] => True
  | l :: ls, y :: ys, u :: us => (F.le l y = true ∧ F.le y u = true) ∧ inVolP ls ys us
  | _, _, _ => False

/-- Lower bounds reachable on the descent path of a finite query: `-inf` or
finite (never `+inf` and never `nan`). -/
def lowerOK (lo : Pt) : Prop := ∀ v ∈ lo, v = F.neginf ∨ ∃ q, v = F.fin q

/-- Upper bounds reachable on the descent path of a finite query: `+inf` or
finite. -/
def upperOK (up : Pt) : Prop := ∀ v ∈ up, v = F.posinf ∨ ∃ q, v = F.fin q

/-- Rational reading of a finite point (junk on non-finite coordinates). -/
def ptQ (p : Pt) : List ℚ :=
  p.map fun v => match v with | .fin d => d.toQ | _ => 0

/-- Rational squared distance of two rational coordinate lists. -/
def dsqQ : List ℚ → List ℚ → ℚ
  | a :: as_, b :: bs => (a - b) ^ 2 + dsqQ as_ bs
  | _, _ => 0

/-- The point permutation produced by the recursive partition: the point
placed at each leaf, in leaf order.  This mirrors the slice rearrangement of
`build_tree` (the repeated `median_partition` and halving of the working
point buffer), recording only the points, not the affordance data. -/
def partitionLeaves (D : Nat) : Nat → List Pt → Nat → List Pt
  | 0, pts, _ => [pts.headD (pad D)]
  | k + 1, pts, d =>
    if pts.length ≤ 1 then [pts.headD (pad D)] else
      let s := (median_partition pts d).1
      partitionLeaves D k (s.take (pts.length / 2)) ((d + 1) % D) ++
        partitionLeaves D k (s.drop (pts.length / 2)) ((d + 1) % D)

/-- Placeholder affordance tree used as an `Option.getD` default when naming
the result of a concrete construction. -/
def dfltAff (D : Nat) : AffordanceTree D := ⟨.leaf [], (.nan, .nan)⟩

/-- Shorthand for a finite integer coordinate value. -/
def fI (n : Int) : F := .fin (.ofInt n)

/-- Concrete input of the spec seed test 3: the 1-dimensional points
`[[0.0], [2.0], [4.0]]`. -/
def seedPts1d : List Pt := [[fI 0], [fI 2], [fI 4]]

/-- Concrete 2-dimensional input exhibiting the wrong-axis pruning of
`query1_exact`: four points with distinct coordinates on every sort key. -/
def exactBugPts : List Pt :=
  [[fI (-20), fI 0], [fI (-2), fI 300], [fI 50, fI 1000], [fI 60, fI 2000]]

/-- The needle `(-1, 149.5)` for the `query1_exact` failing input. -/
def exactBugNeedle : Pt := [fI (-1), .fin ⟨299, 1⟩]

/-- Concrete 2-dimensional input exhibiting the boundary unsoundness of the
affordance build: four points, declared squared-radius range `(0, 4)`. -/
def affBoundaryPts : List Pt :=
  [[fI 0, fI 0], [fI 0, fI 4], [fI 5, fI 0], [fI 4, fI 4]]

/-- Concrete 1-dimensional input exhibiting the retired-lane defect of
`collides_simd`: the affordance lists of the four leaves have lengths
`[2, 2, 1, 1]`, so one lane retires while another is still scanning. -/
def simdBugPts : List Pt := [[fI 0], [fI 1], [fI 4], [fI 9]]

end Captree

namespace Captree

/-- Non-strict dyadic comparison agrees with the rational order. -/
theorem Dy.ble_iff (x y : Dy) : x.ble y = true ↔ x.toQ ≤ y.toQ := by
  rw [Dy.ble, decide_eq_true_eq, Dy.toQ, Dy.toQ,
    div_le_div_iff₀ (by positivity) (by positivity)]
  exact_mod_cast Iff.rfl

/-- Strict dyadic comparison agrees with the rational order. -/
theorem Dy.blt_iff (x y : Dy) : x.blt y = true ↔ x.toQ < y.toQ := by
  rw [Dy.blt, decide_eq_true_eq, Dy.toQ, Dy.toQ,
    div_lt_div_iff₀ (by positivity) (by positivity)]
  exact_mod_cast Iff.rfl

/-- Dyadic value equality agrees with rational equality. -/
theorem Dy.beq_iff (x y : Dy) : x.beq y = true ↔ x.toQ = y.toQ := by
  rw [Dy.beq, decide_eq_true_eq, Dy.toQ, Dy.toQ,
    div_eq_div_iff (by positivity) (by positivity)]
  exact_mod_cast Iff.rfl

/-- The sort comparison is total. -/
theorem F.cmpLe_total (a b : F) : F.cmpLe a b = true ∨ F.cmpLe b a = true := by
  cases a <;> cases b <;> simp [F.cmpLe, Dy.ble_iff]
  exact le_total _ _

/-- The sort comparison is transitive. -/
theorem F.cmpLe_trans (a b c : F) (hab : F.cmpLe a b = true) (hbc : F.cmpLe b c = true) :
    F.cmpLe a c = true := by
  cases a <;> cases b <;> cases c <;> simp_all [F.cmpLe, Dy.ble_iff]
  exact le_trans hab hbc

/-- Membership in an insertion. -/
theorem mem_insertSorted {α : Type} (le : α → α → Bool) (x a : α) :
    ∀ l : List α, a ∈ insertSorted le x l ↔ a = x ∨ a ∈ l := by
  intro l
  induction l with
  | nil => simp [insertSorted]
  | cons y ys ih =>
    simp only [insertSorted]
    split_ifs
    · simp [List.mem_cons]
    · simp only [List.mem_cons, ih]
      tauto

/-- Insertion produces a permutation of consing. -/
theorem perm_insertSorted {α : Type} (le : α → α → Bool) (x : α) :
    ∀ l : List α, (insertSorted le x l).Perm (x :: l) := by
  intro l
  induction l with
  | nil => exact List.Perm.refl _
  | cons y ys ih =>
    simp only [insertSorted]
    split_ifs
    · exact List.Perm.refl _
    · exact (List.Perm.cons y ih).trans (List.Perm.swap x y ys)

/-- The sort permutes its input. -/
theorem sortBy_perm {α : Type} (le : α → α → Bool) :
    ∀ l : List α, (sortBy le l).Perm l := by
  intro l
  induction l with
  | nil => exact List.Perm.refl _
  | cons x xs ih =>
    exact (perm_insertSorted le x (sortBy le xs)).trans (List.Perm.cons x ih)

/-- The sort preserves length. -/
theorem sortBy_length {α : Type} (le : α → α → Bool) (l : List α) :
    (sortBy le l).length = l.length :=
  (sortBy_perm le l).length_eq

/-- Insertion into a sorted list keeps it sorted, for a total transitive
comparison. -/
theorem pairwise_insertSorted {α : Type} (le : α → α → Bool)
    (htr : ∀ a b c, le a b = true → le b c = true → le a c = true)
    (hto : ∀ a b, le a b = true ∨ le b a = true) (x : α) :
    ∀ l : List α, l.Pairwise (fun a b => le a b = true) →
      (insertSorted le x l).Pairwise (fun a b => le a b = true) := by
  intro l
  induction l with
  | nil => intro _; simp [insertSorted]
  | cons y ys ih =>
    intro hp
    rw [List.pairwise_cons] at hp
    obtain ⟨hy, hys⟩ := hp
    simp only [insertSorted]
    split_ifs with hxy
    · rw [List.pairwise_cons]
      refine ⟨?_, ?_⟩
      · intro b hb
        rcases List.mem_cons.mp hb with rfl | hb
        · exact hxy
        · exact htr _ _ _ hxy (hy b hb)
      · rw [List.pairwise_cons]; exact ⟨hy, hys⟩
    · rw [List.pairwise_cons]
      refine ⟨?_, ih hys⟩
      intro b hb
      rcases (mem_insertSorted le x b ys).mp hb with rfl | hb
      · rcases hto b y with h | h
        · exact absurd h hxy
        · exact h
      · exact hy b hb

/-- The sort sorts, for a total transitive comparison. -/
theorem sortBy_pairwise {α : Type} (le : α → α → Bool)
    (htr : ∀ a b c, le a b = true → le b c = true → le a c = true)
    (hto : ∀ a b, le a b = true ∨ le b a = true) :
    ∀ l : List α, (sortBy le l).Pairwise (fun a b => le a b = true) := by
  intro l
  induction l with
  | nil => simp [sortBy]
  | cons x xs ih => exact pairwise_insertSorted le htr hto x _ ih

/-- The floor-logarithm loop evaluates powers of two, given enough fuel. -/
theorem log2Go_pow : ∀ (k f : Nat), 2 ^ k ≤ f → log2Go f (2 ^ k) = k := by
  intro k
  induction k with
  | zero =>
    intro f hf
    cases f with
    | zero => omega
    | succ f0 => simp [log2Go]
  | succ k ih =>
    intro f hf
    have hp : 0 < 2 ^ k := pow_pos (by norm_num) k
    have h2 : 2 ^ (k + 1) = 2 ^ k * 2 := pow_succ 2 k
    cases f with
    | zero => omega
    | succ f0 =>
      show log2Go (f0 + 1) (2 ^ (k + 1)) = k + 1
      rw [log2Go]
      rw [if_neg (by omega), show 2 ^ (k + 1) / 2 = 2 ^ k by omega, ih f0 (by omega)]

/-- The floor logarithm of a power of two. -/
theorem log2_pow (k : Nat) : log2 (2 ^ k) = k := log2Go_pow k _ le_rfl

/-- The ceiling-logarithm loop bounds its argument, given enough fuel. -/
theorem clog2Go_le : ∀ (m f : Nat), m ≤ f → m ≤ 2 ^ clog2Go f m := by
  intro m
  induction m using Nat.strong_induction_on with
  | _ m ih =>
    intro f hf
    cases f with
    | zero =>
      have : m = 0 := by omega
      subst this
      simp [clog2Go]
    | succ f0 =>
      rw [clog2Go]
      split_ifs with h1
      · simpa using h1
      · have h2 := ih ((m + 1) / 2) (by omega) f0 (by omega)
        have h3 : m ≤ 2 * ((m + 1) / 2) := by omega
        calc m ≤ 2 * ((m + 1) / 2) := h3
        _ ≤ 2 * 2 ^ clog2Go f0 ((m + 1) / 2) := Nat.mul_le_mul_left 2 h2
        _ = 2 ^ (clog2Go f0 ((m + 1) / 2) + 1) := by rw [pow_succ, Nat.mul_comm]

/-- Every number is at most the power of two its ceiling logarithm names. -/
theorem le_pow_clog2 (n : Nat) : n ≤ 2 ^ clog2 n := clog2Go_le n n le_rfl

/-- Padding makes the point list a power of two long. -/
theorem padded_length (D : Nat) (ps : List Pt) :
    (padded D ps).length = 2 ^ clog2 ps.length := by
  have := le_pow_clog2 ps.length
  simp [padded, pad]
  omega

/-- A build over a power-of-two slice is a perfect tree of the matching
depth. -/
theorem buildKd_perfect (D : Nat) :
    ∀ (k : Nat) (pts : List Pt) (d : Nat), pts.length = 2 ^ k →
      Perfect (buildKd D k pts d) k := by
  intro k
  induction k with
  | zero => intro pts d _; exact Perfect.leaf _
  | succ k ih =>
    intro pts d hlen
    have hp : 0 < 2 ^ k := pow_pos (by norm_num) k
    have h2 : 2 ^ (k + 1) = 2 ^ k * 2 := pow_succ 2 k
    rw [buildKd, if_neg (by omega)]
    have hslen : (sortBy (ptLe d) pts).length = 2 ^ (k + 1) := by
      rw [sortBy_length, hlen]
    refine Perfect.node _ _ _ k (ih _ _ ?_) (ih _ _ ?_)
    · rw [List.length_take, hslen, hlen]; omega
    · rw [List.length_drop, hslen, hlen]; omega

/-- A perfect tree of depth `k` has `2 ^ k` leaves. -/
theorem leavesT_length {α : Type} {t : KdT α} {k : Nat} (h : Perfect t k) :
    (leavesT t).length = 2 ^ k := by
  induction h with
  | leaf a => rfl
  | node tv l r k _ _ ihl ihr =>
    simp only [leavesT, List.length_append, ihl, ihr]
    omega

/-- A perfect tree of depth `k` has `k` levels of split values. -/
theorem testsLevels_length {α : Type} {t : KdT α} {k : Nat} (h : Perfect t k) :
    (testsLevels t).length = k := by
  induction h with
  | leaf a => rfl
  | node tv l r k _ _ ihl ihr =>
    simp only [testsLevels, List.length_cons, List.length_zipWith, ihl, ihr]
    omega

/-- Level `j` of a perfect tree holds `2 ^ j` split values. -/
theorem testsLevels_getD_length {α : Type} :
    ∀ {t : KdT α} {k : Nat}, Perfect t k → ∀ j, j < k →
      ((testsLevels t).getD j []).length = 2 ^ j := by
  intro t k h
  induction h with
  | leaf a => intro j hj; omega
  | node tv l r k hl hr ihl ihr =>
    intro j hj
    cases j with
    | zero => rfl
    | succ j =>
      rw [testsLevels, List.getD_cons_succ]
      have hj' : j < k := by omega
      have hlen : j < (List.zipWith (· ++ ·) (testsLevels l) (testsLevels r)).length := by
        rw [List.length_zipWith, testsLevels_length hl, testsLevels_length hr]
        omega
      rw [List.getD_eq_getElem _ _ hlen, List.getElem_zipWith]
      rw [List.length_append]
      rw [← List.getD_eq_getElem _ ([] : List F)
          (by rw [testsLevels_length hl]; omega),
        ← List.getD_eq_getElem _ ([] : List F)
          (by rw [testsLevels_length hr]; omega),
        ihl j hj', ihr j hj']
      omega

/-- Entry `b` of level `j` of a perfect tree is the root split value of the
subtree at path `(j, b)`. -/
theorem testsLevels_getD_getD {α : Type} :
    ∀ {t : KdT α} {k : Nat}, Perfect t k → ∀ j b, j < k → b < 2 ^ j →
      ((testsLevels t).getD j []).getD b .nan = rootTest (subtreeAt t j b) := by
  intro t k h
  induction h with
  | leaf a => intro j b hj hb; omega
  | node tv l r k hl hr ihl ihr =>
    intro j b hj hb
    cases j with
    | zero =>
      have hb0 : b = 0 := by omega
      subst hb0
      rfl
    | succ j =>
      rw [testsLevels, List.getD_cons_succ]
      have hj' : j < k := by omega
      have hlen : j < (List.zipWith (· ++ ·) (testsLevels l) (testsLevels r)).length := by
        rw [List.length_zipWith, testsLevels_length hl, testsLevels_length hr]
        omega
      rw [List.getD_eq_getElem _ _ hlen, List.getElem_zipWith]
      rw [← List.getD_eq_getElem _ ([] : List F)
          (by rw [testsLevels_length hl]; omega),
        ← List.getD_eq_getElem _ ([] : List F)
          (by rw [testsLevels_length hr]; omega)]
      show (((testsLevels l).getD j []) ++ ((testsLevels r).getD j [])).getD b .nan =
        rootTest (subtreeAt (KdT.node tv l r) (j + 1) b)
      rw [subtreeAt]
      by_cases hbj : b < 2 ^ j
      · rw [if_pos hbj, List.getD_append _ _ _ _ (by rw [testsLevels_getD_length hl j hj']; omega),
          ihl j b hj' hbj]
      · have h2 : 2 ^ (j + 1) = 2 ^ j * 2 := pow_succ 2 j
        rw [if_neg hbj, List.getD_append_right _ _ _ _
            (by rw [testsLevels_getD_length hl j hj']; omega),
          testsLevels_getD_length hl j hj', ihr j (b - 2 ^ j) hj' (by omega)]

/-- Indexing a flattening at the start offset of the `j`-th list plus `b`
reads entry `b` of the `j`-th list. -/
theorem flatten_getD_general {α : Type} (dflt : α) :
    ∀ (L : List (List α)) (j b : Nat), b < (L.getD j []).length →
      L.flatten.getD ((((L.take j).map List.length).sum) + b) dflt =
        (L.getD j []).getD b dflt := by
  intro L
  induction L with
  | nil => intro j b hb; simp at hb
  | cons a rest ih =>
    intro j b hb
    cases j with
    | zero =>
      rw [List.getD_cons_zero] at hb
      simp only [List.take_zero, List.map_nil, List.sum_nil, List.flatten_cons, Nat.zero_add,
        List.getD_cons_zero]
      rw [List.getD_append _ _ _ _ hb]
    | succ j =>
      rw [List.getD_cons_succ] at hb
      simp only [List.take_succ_cons, List.map_cons, List.sum_cons, List.flatten_cons,
        List.getD_cons_succ]
      rw [Nat.add_assoc, List.getD_append_right _ _ _ _ (by omega), Nat.add_sub_cancel_left]
      exact ih j b hb

/-- The first `j` levels of a perfect tree hold `2 ^ j - 1` split values in
total. -/
theorem testsLevels_take_sum {α : Type} {t : KdT α} {k : Nat} (h : Perfect t k) :
    ∀ j, j ≤ k → (((testsLevels t).take j).map List.length).sum = 2 ^ j - 1 := by
  intro j
  induction j with
  | zero => intro _; rfl
  | succ j ih =>
    intro hj
    have hj' : j < (List.map List.length (testsLevels t)).length := by
      rw [List.length_map, testsLevels_length h]; omega
    rw [List.map_take, List.sum_take_succ _ _ hj', ← List.map_take, ih (by omega)]
    rw [List.getElem_map, ← List.getD_eq_getElem _ ([] : List F)
        (by rw [testsLevels_length h]; omega),
      testsLevels_getD_length h j (by omega)]
    have hp : 0 < 2 ^ j := pow_pos (by norm_num) j
    have h2 : 2 ^ (j + 1) = 2 ^ j * 2 := pow_succ 2 j
    omega

/-- A perfect tree of depth `k` has a flat tests array of length
`2 ^ k - 1`. -/
theorem testsArr_length {α : Type} {t : KdT α} {k : Nat} (h : Perfect t k) :
    (testsArr t).length = 2 ^ k - 1 := by
  rw [testsArr, List.length_flatten, ← List.take_length (List.map List.length (testsLevels t)),
    List.length_map, testsLevels_length h, ← List.map_take]
  exact testsLevels_take_sum h k le_rfl

/-- Reading the flat tests array at index `2 ^ j - 1 + b` yields the split
value of the subtree at path `(j, b)`: the breadth-first layout of the
source. -/
theorem testsArr_getD {α : Type} {t : KdT α} {k : Nat} (h : Perfect t k)
    (j b : Nat) (hj : j < k) (hb : b < 2 ^ j) :
    (testsArr t).getD (2 ^ j - 1 + b) .nan = rootTest (subtreeAt t j b) := by
  have hblen : b < ((testsLevels t).getD j []).length := by
    rw [testsLevels_getD_length h j hj]; exact hb
  have := flatten_getD_general (F.nan) (testsLevels t) j b hblen
  rw [testsLevels_take_sum h j (by omega)] at this
  rw [testsArr, this, testsLevels_getD_getD h j b hj hb]

/-- Extending a path by one final step selects a child of the subtree the
path reaches. -/
theorem subtreeAt_child {α : Type} :
    ∀ (j : Nat) (t : KdT α) (b c : Nat), b < 2 ^ j → c < 2 →
      subtreeAt t (j + 1) (2 * b + c) = childAt c (subtreeAt t j b) := by
  intro j
  induction j with
  | zero =>
    intro t b c hb hc
    have hb0 : b = 0 := by omega
    subst hb0
    cases t with
    | leaf a => rfl
    | node tv l r =>
      rcases (by omega : c = 0 ∨ c = 1) with rfl | rfl
      · norm_num [subtreeAt, childAt]
      · norm_num [subtreeAt, childAt]
  | succ j ih =>
    intro t b c hb hc
    have h2 : 2 ^ (j + 1) = 2 ^ j * 2 := pow_succ 2 j
    cases t with
    | leaf a =>
      show KdT.leaf a = childAt c (subtreeAt (KdT.leaf a) (j + 1) b)
      rw [subtreeAt]
      rfl
    | node tv l r =>
      rw [subtreeAt, subtreeAt]
      by_cases hbj : b < 2 ^ j
      · rw [if_pos (by omega), if_pos hbj]
        exact ih l b c hbj hc
      · rw [if_neg (by omega), if_neg hbj,
          show 2 * b + c - 2 ^ (j + 1) = 2 * (b - 2 ^ j) + c by omega]
        exact ih r (b - 2 ^ j) c (by omega) hc

/-- Subtrees of a perfect tree are perfect with the remaining depth. -/
theorem subtreeAt_perfect {α : Type} :
    ∀ (j : Nat) (t : KdT α) (k b : Nat), Perfect t k → j ≤ k → b < 2 ^ j →
      Perfect (subtreeAt t j b) (k - j) := by
  intro j
  induction j with
  | zero => intro t k b h _ _; simpa [subtreeAt] using h
  | succ j ih =>
    intro t k b h hj hb
    cases h with
    | leaf a => omega
    | node tv l r k0 hl hr =>
      rw [subtreeAt]
      have hk : k0 + 1 - (j + 1) = k0 - j := by omega
      rw [hk]
      by_cases hbj : b < 2 ^ j
      · rw [if_pos hbj]; exact ih l k0 b hl (by omega) hbj
      · have h2 : 2 ^ (j + 1) = 2 ^ j * 2 := pow_succ 2 j
        rw [if_neg hbj]; exact ih r k0 (b - 2 ^ j) hr (by omega) (by omega)

/-- The structural leaf index is below the leaf count. -/
theorem descendIdx_lt (D : Nat) {α : Type} :
    ∀ (t : KdT α) (x : Pt) (i : Nat), descendIdx D t x i < (leavesT t).length := by
  intro t
  induction t with
  | leaf a => intro x i; simp [descendIdx, leavesT]
  | node tv l r ihl ihr =>
    intro x i
    rw [descendIdx, leavesT, List.length_append]
    split_ifs
    · have := ihl x (i + 1); omega
    · have := ihr x (i + 1); omega

/-- Reading the leaf array at the structural leaf index yields the payload
the structural descent reaches. -/
theorem leavesT_getD_descendIdx (D : Nat) {α : Type} (dflt : α) :
    ∀ (t : KdT α) (x : Pt) (i : Nat),
      (leavesT t).getD (descendIdx D t x i) dflt = descendLeaf D t x i := by
  intro t
  induction t with
  | leaf a => intro x i; rfl
  | node tv l r ihl ihr =>
    intro x i
    rw [descendIdx, descendLeaf, leavesT]
    split_ifs
    · rw [List.getD_append _ _ _ _ (descendIdx_lt D l x (i + 1))]
      exact ihl x (i + 1)
    · rw [List.getD_append_right _ _ _ _ (by omega), Nat.add_sub_cancel_left]
      exact ihr x (i + 1)

/-- The flat descent loop of the source, started at the array position of the
path-`(K - n, b)` subtree with `n` steps to go, lands on the array position
of the leaf the structural descent of that subtree reaches. -/
theorem descend_bridge {α : Type} (D : Nat) (x : Pt) (K : Nat) (T : KdT α)
    (hT : Perfect T K) :
    ∀ (n : Nat), n ≤ K → ∀ (b i : Nat), b < 2 ^ (K - n) →
      descendLoop D (testsArr T) x i (2 ^ (K - n) - 1 + b) n =
        2 ^ K - 1 + (b * 2 ^ n + descendIdx D (subtreeAt T (K - n) b) x i) := by
  intro n
  induction n with
  | zero =>
    intro _ b i hb
    simp only [Nat.sub_zero] at hb ⊢
    have hP : Perfect (subtreeAt T K b) 0 := by
      have := subtreeAt_perfect K T K b hT le_rfl hb
      simpa using this
    generalize hs : subtreeAt T K b = s at hP
    cases hP with
    | leaf a => simp [descendLoop, descendIdx]
  | succ n ihn =>
    intro hn b i hb
    have hj : K - (n + 1) < K := by omega
    have hKn : K - n = (K - (n + 1)) + 1 := by omega
    have h2 : 2 ^ (K - n) = 2 ^ (K - (n + 1)) * 2 := by rw [hKn]; exact pow_succ 2 _
    have hP : Perfect (subtreeAt T (K - (n + 1)) b) (n + 1) := by
      have := subtreeAt_perfect (K - (n + 1)) T K b hT (by omega) hb
      rwa [show K - (K - (n + 1)) = n + 1 by omega] at this
    rw [descendLoop, descendStep,
      testsArr_getD hT (K - (n + 1)) b hj hb]
    cases hsub : subtreeAt T (K - (n + 1)) b with
    | leaf a => rw [hsub] at hP; cases hP
    | node tv l r =>
      rw [hsub] at hP
      cases hP with
      | node _ _ _ _ hl hr =>
        simp only [rootTest]
        have hlen : (leavesT l).length = 2 ^ n := leavesT_length hl
        by_cases hlt : (coord x (i % D)).lt tv = true
        · rw [if_pos hlt]
          rw [show 2 * (2 ^ (K - (n + 1)) - 1 + b) + 1 = 2 ^ (K - n) - 1 + (2 * b + 0) by omega]
          rw [ihn (by omega) (2 * b + 0) (i + 1) (by omega)]
          rw [show K - n = (K - (n + 1)) + 1 from by omega,
            subtreeAt_child (K - (n + 1)) T b 0 hb (by omega), hsub]
          rw [show childAt 0 (KdT.node tv l r) = l from by simp [childAt]]
          simp only [descendIdx]
          rw [if_pos hlt]
          rw [show (2 * b + 0) * 2 ^ n = b * 2 ^ (n + 1) from by rw [pow_succ]; ring]
        · rw [if_neg hlt]
          rw [show 2 * (2 ^ (K - (n + 1)) - 1 + b) + 2 = 2 ^ (K - n) - 1 + (2 * b + 1) by omega]
          rw [ihn (by omega) (2 * b + 1) (i + 1) (by omega)]
          rw [show K - n = (K - (n + 1)) + 1 from by omega,
            subtreeAt_child (K - (n + 1)) T b 1 hb (by omega), hsub]
          rw [show childAt 1 (KdT.node tv l r) = r from by simp [childAt]]
          simp only [descendIdx]
          rw [if_neg hlt, hlen]
          rw [show (2 * b + 1) * 2 ^ n = b * 2 ^ (n + 1) + 2 ^ n from by rw [pow_succ]; ring]
          omega

/-- The scalar `query1` of a built tree computes the structural leaf index of
the descent. -/
theorem query1_eq_descendIdx (D : Nat) (ps : List Pt) (needle : Pt) :
    (PkdTree.new D ps).query1 needle = descendIdx D (PkdTree.new D ps).tree needle 0 := by
  have hP : Perfect (PkdTree.new D ps).tree (clog2 ps.length) :=
    buildKd_perfect D _ _ 0 (padded_length D ps)
  have hlen : (PkdTree.new D ps).tests.length = 2 ^ clog2 ps.length - 1 :=
    testsArr_length hP
  have hp : 0 < 2 ^ clog2 ps.length := pow_pos (by norm_num) _
  have hlog : log2 ((PkdTree.new D ps).tests.length + 1) = clog2 ps.length := by
    rw [hlen, show 2 ^ clog2 ps.length - 1 + 1 = 2 ^ clog2 ps.length by omega, log2_pow]
  have hbr := descend_bridge D needle (clog2 ps.length) (PkdTree.new D ps).tree hP
    (clog2 ps.length) le_rfl 0 0 (by simp)
  simp only [Nat.sub_self, pow_zero, Nat.zero_add, Nat.zero_mul, subtreeAt] at hbr
  rw [PkdTree.query1, hlog, hlen]
  show descendLoop D (testsArr (PkdTree.new D ps).tree) needle 0 0 (clog2 ps.length) -
    (2 ^ clog2 ps.length - 1) = descendIdx D (PkdTree.new D ps).tree needle 0
  rw [hbr]
  omega

/-- The point the scalar `query1` of a built tree names is the payload the
structural descent reaches. -/
theorem get_point_query1 (D : Nat) (ps : List Pt) (needle : Pt) :
    (PkdTree.new D ps).get_point ((PkdTree.new D ps).query1 needle) =
      descendLeaf D (PkdTree.new D ps).tree needle 0 := by
  rw [query1_eq_descendIdx, PkdTree.get_point,
    show PkdTree.points (PkdTree.new D ps) = leavesT (PkdTree.new D ps).tree from rfl,
    leavesT_getD_descendIdx]

/-- Unfolded node case of `buildKd` on a slice longer than one. -/
theorem buildKd_node (D k : Nat) (pts : List Pt) (d : Nat) (h : ¬ pts.length ≤ 1) :
    buildKd D (k + 1) pts d = .node
      (F.avg (coord ((sortBy (ptLe d) pts).getD (pts.length / 2 - 1) []) d)
             (coord ((sortBy (ptLe d) pts).getD (pts.length / 2) []) d))
      (buildKd D k ((sortBy (ptLe d) pts).take (pts.length / 2)) ((d + 1) % D))
      (buildKd D k ((sortBy (ptLe d) pts).drop (pts.length / 2)) ((d + 1) % D)) := by
  rw [buildKd, if_neg h]

/-- Every coordinate of the padding sentinel is `+inf`. -/
theorem coord_pad (D d : Nat) (hd : d < D) : coord (pad D) d = .posinf := by
  rw [coord, pad, List.getD_eq_getElem _ _ (by simpa using hd), List.getElem_replicate]

/-- The padding sentinel has no finite coordinate (for positive dimension). -/
theorem pad_not_finite (D : Nat) (hD : 0 < D) : ¬ ptFinite (pad D) := by
  intro h
  have hmem : F.posinf ∈ pad D := by
    rw [pad, List.mem_replicate]
    exact ⟨by omega, rfl⟩
  have := (List.all_eq_true.mp h) _ hmem
  simp [isFinB] at this

/-- A finite point of full dimension has a finite coordinate at every legal
axis. -/
theorem ptFinite_coord (p : Pt) (hfin : ptFinite p) (D d : Nat) (hlen : p.length = D)
    (hd : d < D) : ∃ q, coord p d = F.fin q := by
  have hd' : d < p.length := by omega
  have hmem : p[d] ∈ p := List.getElem_mem hd'
  have hall := (List.all_eq_true.mp hfin) _ hmem
  rw [coord, List.getD_eq_getElem _ _ hd']
  cases h : p[d] with
  | fin q => exact ⟨q, rfl⟩
  | nan => rw [h] at hall; simp [isFinB] at hall
  | neginf => rw [h] at hall; simp [isFinB] at hall
  | posinf => rw [h] at hall; simp [isFinB] at hall

/-- Every point of the padded working buffer has, at a legal axis, either a
finite coordinate or the `+inf` coordinate of the sentinel. -/
theorem coord_class (D d : Nat) (hd : d < D) (p : Pt) (hlen : p.length = D)
    (hinv : ptFinite p ∨ p = pad D) :
    (∃ q, coord p d = F.fin q) ∨ coord p d = F.posinf := by
  rcases hinv with hf | hp
  · exact Or.inl (ptFinite_coord p hf D d hlen hd)
  · exact Or.inr (hp ▸ coord_pad D d hd)

/-- The head of a nonempty list survives a positive `take`. -/
theorem head_mem_take {α : Type} (dflt : α) (s : List α) (n : Nat) (hn : 0 < n)
    (hs : s ≠ []) : s.getD 0 dflt ∈ s.take n := by
  cases s with
  | nil => exact absurd rfl hs
  | cons a as =>
    cases n with
    | zero => omega
    | succ n => simp

/-- In a slice sorted on axis `d` whose points are finite or sentinels, the
first point is finite whenever some point is: the `+inf` coordinates of the
sentinels sort them to the back. -/
theorem sorted_head_finite (D d : Nat) (hd : d < D) (hD : 0 < D) (s : List Pt)
    (hpw : s.Pairwise (fun a b => ptLe d a b = true))
    (hlens : ∀ p ∈ s, p.length = D)
    (hinv : ∀ p ∈ s, ptFinite p ∨ p = pad D)
    (hex : ∃ p ∈ s, ptFinite p) : ptFinite (s.getD 0 []) := by
  cases s with
  | nil => obtain ⟨p, hp, _⟩ := hex; simp at hp
  | cons a as =>
    rw [List.getD_cons_zero]
    rcases hinv a (List.mem_cons_self a as) with hf | hpad
    · exact hf
    · obtain ⟨pf, hpf, hffin⟩ := hex
      rcases List.mem_cons.mp hpf with rfl | hpf'
      · rw [hpad] at hffin
        exact absurd hffin (pad_not_finite D hD)
      · exfalso
        rw [List.pairwise_cons] at hpw
        have hle := hpw.1 pf hpf'
        rw [ptLe, hpad, coord_pad D d hd] at hle
        obtain ⟨q, hq⟩ := ptFinite_coord pf hffin D d
          (hlens pf (List.mem_cons_of_mem a hpf')) hd
        rw [hq] at hle
        simp [F.cmpLe] at hle

/-- Main descent invariant: a finite needle descending a tree built from a
power-of-two slice of finite points and sentinels reaches a finite point of
the slice, never a sentinel: whenever a half contains only sentinels, the
split value is `+inf` and the finite needle turns away from it. -/
theorem descendLeaf_finite (D : Nat) (hD : 0 < D) (x : Pt)
    (hx : ∀ a, a < D → isFinB (coord x a) = true) :
    ∀ (k : Nat) (pts : List Pt) (d i : Nat), pts.length = 2 ^ k → d < D → i % D = d →
      (∀ p ∈ pts, p.length = D) →
      (∀ p ∈ pts, ptFinite p ∨ p = pad D) →
      (∃ p ∈ pts, ptFinite p) →
      ptFinite (descendLeaf D (buildKd D k pts d) x i) ∧
        descendLeaf D (buildKd D k pts d) x i ∈ pts := by
  intro k
  induction k with
  | zero =>
    intro pts d i hlen _ _ _ _ hex
    obtain ⟨p, hp, hfinp⟩ := hex
    simp only [buildKd, descendLeaf]
    cases pts with
    | nil => exact absurd hlen (by simp)
    | cons p0 rest =>
      have hr : rest = [] := by
        have : rest.length = 0 := by simpa using hlen
        exact List.length_eq_zero.mp this
      subst hr
      have hpp : p = p0 := by simpa using hp
      subst hpp
      exact ⟨hfinp, by simp⟩
  | succ k ih =>
    intro pts d i hlen hd hid hlens hinv hex
    have hp2 : 0 < 2 ^ k := pow_pos (by norm_num) k
    have h2 : 2 ^ (k + 1) = 2 ^ k * 2 := pow_succ 2 k
    have hgt : ¬ pts.length ≤ 1 := by omega
    rw [buildKd_node D k pts d hgt]
    have hperm := sortBy_perm (ptLe d) pts
    have hslen : (sortBy (ptLe d) pts).length = 2 ^ (k + 1) := by
      rw [sortBy_length, hlen]
    have hmm : ∀ p : Pt, p ∈ sortBy (ptLe d) pts ↔ p ∈ pts := fun p => hperm.mem_iff
    have hlens' : ∀ p ∈ sortBy (ptLe d) pts, p.length = D :=
      fun p hp => hlens p ((hmm p).mp hp)
    have hinv' : ∀ p ∈ sortBy (ptLe d) pts, ptFinite p ∨ p = pad D :=
      fun p hp => hinv p ((hmm p).mp hp)
    have hex' : ∃ p ∈ sortBy (ptLe d) pts, ptFinite p := by
      obtain ⟨p, hp, hf⟩ := hex
      exact ⟨p, (hmm p).mpr hp, hf⟩
    have hsne : sortBy (ptLe d) pts ≠ [] := by
      intro hnil
      rw [hnil] at hslen
      simp at hslen
      omega
    have hpw := sortBy_pairwise (ptLe d)
      (fun a b c hab hbc => F.cmpLe_trans _ _ _ hab hbc)
      (fun a b => F.cmpLe_total _ _) pts
    have hhead : ptFinite ((sortBy (ptLe d) pts).getD 0 []) :=
      sorted_head_finite D d hd hD _ hpw hlens' hinv' hex'
    have hmod : (i + 1) % D = (d + 1) % D := by
      conv_lhs => rw [Nat.add_mod, hid]
      conv_rhs => rw [Nat.add_mod, Nat.mod_eq_of_lt hd]
    have hhalf : pts.length / 2 = 2 ^ k := by omega
    rw [hhalf]
    have htlen : ((sortBy (ptLe d) pts).take (2 ^ k)).length = 2 ^ k := by
      rw [List.length_take, hslen]
      omega
    have hdlen : ((sortBy (ptLe d) pts).drop (2 ^ k)).length = 2 ^ k := by
      rw [List.length_drop, hslen]
      omega
    have hleft := fun hexleft => ih ((sortBy (ptLe d) pts).take (2 ^ k)) ((d + 1) % D)
      (i + 1) htlen (Nat.mod_lt _ hD) hmod
      (fun p hp => hlens' p (List.take_subset _ _ hp))
      (fun p hp => hinv' p (List.take_subset _ _ hp)) hexleft
    have hright := fun hexright => ih ((sortBy (ptLe d) pts).drop (2 ^ k)) ((d + 1) % D)
      (i + 1) hdlen (Nat.mod_lt _ hD) hmod
      (fun p hp => hlens' p (List.drop_subset _ _ hp))
      (fun p hp => hinv' p (List.drop_subset _ _ hp)) hexright
    by_cases hdropfin : ∃ p ∈ (sortBy (ptLe d) pts).drop (2 ^ k), ptFinite p
    · rw [descendLeaf]
      split_ifs with hlt
      · have hres := hleft ⟨_, head_mem_take [] _ _ hp2 hsne, hhead⟩
        exact ⟨hres.1, (hmm _).mp (List.take_subset _ _ hres.2)⟩
      · have hres := hright hdropfin
        exact ⟨hres.1, (hmm _).mp (List.drop_subset _ _ hres.2)⟩
    · have hmem0 : (sortBy (ptLe d) pts).getD (2 ^ k) [] ∈
          (sortBy (ptLe d) pts).drop (2 ^ k) := by
        have h0 : 0 < ((sortBy (ptLe d) pts).drop (2 ^ k)).length := by omega
        have e1 := List.getElem_mem h0
        rw [List.getElem_drop] at e1
        rw [List.getD_eq_getElem _ _ (by omega)]
        simpa using e1
      have hmid2 : (sortBy (ptLe d) pts).getD (2 ^ k) [] = pad D := by
        rcases hinv' _ (List.drop_subset _ _ hmem0) with hf | hp
        · exact absurd ⟨_, hmem0, hf⟩ hdropfin
        · exact hp
      have ht : F.avg (coord ((sortBy (ptLe d) pts).getD (2 ^ k - 1) []) d)
          (coord ((sortBy (ptLe d) pts).getD (2 ^ k) []) d) = .posinf := by
        rw [hmid2, coord_pad D d hd]
        have hm1mem : (sortBy (ptLe d) pts).getD (2 ^ k - 1) [] ∈ sortBy (ptLe d) pts := by
          rw [List.getD_eq_getElem _ _ (by omega)]
          exact List.getElem_mem _
        rcases coord_class D d hd _ (hlens' _ hm1mem) (hinv' _ hm1mem) with ⟨q, hq⟩ | hq
        · rw [hq]; rfl
        · rw [hq]; rfl
      rw [descendLeaf, ht]
      have hxq : ∃ q, coord x (i % D) = F.fin q := by
        have hxa := hx (i % D) (by rw [hid]; exact hd)
        cases hc : coord x (i % D) with
        | fin q => exact ⟨q, rfl⟩
        | nan => rw [hc] at hxa; simp [isFinB] at hxa
        | neginf => rw [hc] at hxa; simp [isFinB] at hxa
        | posinf => rw [hc] at hxa; simp [isFinB] at hxa
      obtain ⟨q, hq⟩ := hxq
      rw [hq, if_pos (show (F.fin q).lt F.posinf = true from rfl)]
      have hres := hleft ⟨_, head_mem_take [] _ _ hp2 hsne, hhead⟩
      exact ⟨hres.1, (hmm _).mp (List.take_subset _ _ hres.2)⟩

/-- C8: for every `PkdTree` built from a nonempty slice of finite points and
every finite needle, `query1` never lands on a padding leaf: the point at the
returned leaf index is one of the input points, not the `(+inf, ..., +inf)`
sentinel. -/
theorem c8_query1_no_pad (D : Nat) (ps : List Pt) (needle : Pt) (hD : 0 < D)
    (hne : ps ≠ [])
    (hfin : ∀ p ∈ ps, p.length = D ∧ ptFinite p)
    (hneedle : ∀ a, a < D → isFinB (coord needle a) = true) :
    (PkdTree.new D ps).get_point ((PkdTree.new D ps).query1 needle) ∈ ps := by
  rw [get_point_query1]
  have hres := descendLeaf_finite D hD needle hneedle (clog2 ps.length) (padded D ps) 0 0
    (padded_length D ps) hD (Nat.zero_mod D)
    (by
      intro p hp
      rcases List.mem_append.mp hp with hp | hp
      · exact (hfin p hp).1
      · rw [(List.mem_replicate.mp hp).2]
        simp [pad])
    (by
      intro p hp
      rcases List.mem_append.mp hp with hp | hp
      · exact Or.inl (hfin p hp).2
      · exact Or.inr (List.mem_replicate.mp hp).2)
    (by
      cases ps with
      | nil => exact absurd rfl hne
      | cons a l =>
        exact ⟨a, List.mem_append_left _ (List.mem_cons_self a l), (hfin a (List.mem_cons_self a l)).2⟩)
  rcases List.mem_append.mp hres.2 with hm | hm
  · exact hm
  · rw [(List.mem_replicate.mp hm).2] at hres
    exact absurd hres.1 (pad_not_finite D hD)

/-- Witness for `c8_query1_no_pad` at a concrete input: three 1-dimensional
points (one sentinel pad is added by the build) and a finite needle. -/
theorem c8_query1_no_pad_witness :
    (PkdTree.new 1 seedPts1d).get_point ((PkdTree.new 1 seedPts1d).query1 [fI 9]) ∈ seedPts1d :=
  c8_query1_no_pad 1 seedPts1d [fI 9] (by decide) (by decide) (by decide) (by decide)

/-- Rational reading of the dyadic zero. -/
theorem Dy.toQ_zero : Dy.zero.toQ = 0 := by
  simp [Dy.toQ, Dy.zero]

/-- Dyadic addition is exact. -/
theorem Dy.toQ_add (x y : Dy) : (x.add y).toQ = x.toQ + y.toQ := by
  simp only [Dy.toQ, Dy.add]
  rw [div_add_div _ _ (by positivity : ((2 : ℚ) ^ x.exp) ≠ 0)
      (by positivity : ((2 : ℚ) ^ y.exp) ≠ 0), pow_add]
  push_cast
  ring_nf

/-- Dyadic negation is exact. -/
theorem Dy.toQ_neg (x : Dy) : x.neg.toQ = -x.toQ := by
  simp [Dy.toQ, Dy.neg, neg_div]

/-- Dyadic subtraction is exact. -/
theorem Dy.toQ_sub (x y : Dy) : (x.sub y).toQ = x.toQ - y.toQ := by
  rw [Dy.sub, Dy.toQ_add, Dy.toQ_neg]
  ring

/-- Dyadic multiplication is exact. -/
theorem Dy.toQ_mul (x y : Dy) : (x.mul y).toQ = x.toQ * y.toQ := by
  simp only [Dy.toQ, Dy.mul]
  rw [div_mul_div_comm, pow_add]
  push_cast
  ring_nf

/-- Dyadic halving is exact. -/
theorem Dy.toQ_half (x : Dy) : x.half.toQ = x.toQ / 2 := by
  simp only [Dy.toQ, Dy.half]
  rw [pow_succ]
  field_simp

/-- Dyadic absolute value is exact. -/
theorem Dy.toQ_abs (x : Dy) : x.abs.toQ = |x.toQ| := by
  simp only [Dy.toQ, Dy.abs]
  rw [abs_div]
  congr 1
  · push_cast; rfl
  · rw [abs_of_pos (by positivity)]

/-- IEEE order on finite values is the rational order. -/
theorem F.le_fin_iff (a b : Dy) : (F.le (.fin a) (.fin b) = true) ↔ a.toQ ≤ b.toQ := by
  simp [F.le, Dy.ble_iff]

/-- IEEE strict order on finite values is the rational strict order. -/
theorem F.lt_fin_iff (a b : Dy) : (F.lt (.fin a) (.fin b) = true) ↔ a.toQ < b.toQ := by
  simp [F.lt, Dy.blt_iff]

/-- IEEE equality on finite values is rational equality. -/
theorem F.eqb_fin_iff (a b : Dy) : (F.eqb (.fin a) (.fin b) = true) ↔ a.toQ = b.toQ := by
  simp [F.eqb, Dy.beq_iff]

/-- Squared distance of finite points is finite and reads as the rational
squared distance. -/
theorem distsq_toQ : ∀ (a b : Pt), ptFinite a → ptFinite b →
    ∃ s : Dy, distsq a b = .fin s ∧ s.toQ = dsqQ (ptQ a) (ptQ b) := by
  intro a
  induction a with
  | nil =>
    intro b _ _
    refine ⟨Dy.zero, ?_, ?_⟩
    · cases b <;> rfl
    · rw [Dy.toQ_zero]
      cases b <;> rfl
  | cons a0 arest ih =>
    intro b hfa hfb
    cases b with
    | nil => exact ⟨Dy.zero, rfl, by rw [Dy.toQ_zero]; rfl⟩
    | cons b0 brest =>
      have ha0 := (List.all_eq_true.mp hfa) a0 (List.mem_cons_self _ _)
      have hb0 := (List.all_eq_true.mp hfb) b0 (List.mem_cons_self _ _)
      have harest : ptFinite arest := by
        rw [ptFinite, List.all_eq_true]
        intro z hz
        exact (List.all_eq_true.mp hfa) z (List.mem_cons_of_mem _ hz)
      have hbrest : ptFinite brest := by
        rw [ptFinite, List.all_eq_true]
        intro z hz
        exact (List.all_eq_true.mp hfb) z (List.mem_cons_of_mem _ hz)
      obtain ⟨s, hs, hsq⟩ := ih brest harest hbrest
      cases a0 with
      | fin aq =>
        cases b0 with
        | fin bq =>
          refine ⟨((aq.sub bq).mul (aq.sub bq)).add s, ?_, ?_⟩
          · rw [distsq]
            rw [show (F.fin aq).sub (F.fin bq) = F.fin (aq.sub bq) from rfl]
            rw [show (F.fin (aq.sub bq)).sq = F.fin ((aq.sub bq).mul (aq.sub bq)) from rfl]
            rw [hs]
            rfl
          · rw [Dy.toQ_add, Dy.toQ_mul, Dy.toQ_sub, hsq]
            show _ = (aq.toQ - bq.toQ) ^ 2 + dsqQ (ptQ arest) (ptQ brest)
            ring
        | nan => simp [isFinB] at hb0
        | neginf => simp [isFinB] at hb0
        | posinf => simp [isFinB] at hb0
      | nan => simp [isFinB] at ha0
      | neginf => simp [isFinB] at ha0
      | posinf => simp [isFinB] at ha0

/-- Rational squared distances are non-negative. -/
theorem dsqQ_nonneg : ∀ a b : List ℚ, 0 ≤ dsqQ a b := by
  intro a
  induction a with
  | nil => intro b; cases b <;> simp [dsqQ]
  | cons a0 arest ih =>
    intro b
    cases b with
    | nil => simp [dsqQ]
    | cons b0 brest =>
      rw [dsqQ]
      have := ih brest
      positivity

/-- Rational squared distance is symmetric. -/
theorem dsqQ_comm : ∀ a b : List ℚ, dsqQ a b = dsqQ b a := by
  intro a
  induction a with
  | nil => intro b; cases b <;> rfl
  | cons a0 arest ih =>
    intro b
    cases b with
    | nil => rfl
    | cons b0 brest =>
      rw [dsqQ, dsqQ, ih brest]
      ring

/-- A vanishing rational squared distance of equally long lists forces the
lists equal. -/
theorem dsqQ_eq_zero : ∀ a b : List ℚ, a.length = b.length → dsqQ a b = 0 → a = b := by
  intro a
  induction a with
  | nil =>
    intro b hlen _
    cases b with
    | nil => rfl
    | cons _ _ => simp at hlen
  | cons a0 arest ih =>
    intro b hlen hz
    cases b with
    | nil => simp at hlen
    | cons b0 brest =>
      rw [dsqQ] at hz
      have h1 : 0 ≤ (a0 - b0) ^ 2 := by positivity
      have h2 := dsqQ_nonneg arest brest
      have h3 : (a0 - b0) ^ 2 = 0 := by linarith
      have h4 : a0 = b0 := by nlinarith [sq_nonneg (a0 - b0)]
      have h5 := ih brest (by simpa using hlen) (by linarith)
      rw [h4, h5]

/-- IEEE array equality with a finite right side forces the left side finite
with the same rational reading and the same length. -/
theorem ptEqb_toQ : ∀ a b : Pt, ptEqb a b = true → ptFinite b →
    ptFinite a ∧ ptQ a = ptQ b ∧ a.length = b.length := by
  intro a
  induction a with
  | nil =>
    intro b heq _
    cases b with
    | nil => exact ⟨rfl, rfl, rfl⟩
    | cons _ _ => simp [ptEqb] at heq
  | cons a0 arest ih =>
    intro b heq hfb
    cases b with
    | nil => simp [ptEqb] at heq
    | cons b0 brest =>
      rw [ptEqb, Bool.and_eq_true] at heq
      have hb0 := (List.all_eq_true.mp hfb) b0 (List.mem_cons_self _ _)
      have hbrest : ptFinite brest := by
        rw [ptFinite, List.all_eq_true]
        intro z hz
        exact (List.all_eq_true.mp hfb) z (List.mem_cons_of_mem _ hz)
      obtain ⟨hfa, hqa, hla⟩ := ih brest heq.2 hbrest
      cases b0 with
      | fin bq =>
        cases a0 with
        | fin aq =>
          refine ⟨?_, ?_, by simpa using hla⟩
          · rw [ptFinite, List.all_eq_true]
            intro z hz
            rcases List.mem_cons.mp hz with rfl | hz
            · rfl
            · exact (List.all_eq_true.mp hfa) z hz
          · rw [ptQ, List.map_cons, ptQ, List.map_cons]
            rw [show ((F.eqb (F.fin aq) (F.fin bq)) = true) ↔ aq.toQ = bq.toQ from
              F.eqb_fin_iff aq bq] at heq
            rw [← ptQ, ← ptQ, hqa]
            simp [heq.1]
        | nan => simp [F.eqb] at heq
        | neginf => simp [F.eqb] at heq
        | posinf => simp [F.eqb] at heq
      | nan => simp [isFinB] at hb0
      | neginf => simp [isFinB] at hb0
      | posinf => simp [isFinB] at hb0

/-- The legal-radius bound forces the declared maximum to be `+inf` or a
finite value at least the radius. -/
theorem rsqmax_cases (rsqmax : F) (r : Dy) (hr : F.le (.fin r) rsqmax = true) :
    rsqmax = .posinf ∨ ∃ m, rsqmax = .fin m ∧ r.toQ ≤ m.toQ := by
  cases rsqmax with
  | posinf => exact Or.inl rfl
  | fin m => exact Or.inr ⟨m, rfl, (F.le_fin_iff r m).mp hr⟩
  | nan => simp [F.le] at hr
  | neginf => simp [F.le] at hr

/-- A finite list member within radius makes the affordance scan succeed. -/
theorem scan_hit (x : Pt) (r : Dy) (list : List Pt) (q : Pt) (hq : q ∈ list)
    (hqf : ptFinite q) (hxf : ptFinite x) (hle : dsqQ (ptQ q) (ptQ x) ≤ r.toQ) :
    (list.any fun z => (distsq z x).le (.fin r)) = true := by
  rw [List.any_eq_true]
  refine ⟨q, hq, ?_⟩
  obtain ⟨s, hs, hsq⟩ := distsq_toQ q x hqf hxf
  rw [hs, F.le_fin_iff, hsq]
  exact hle

/-- Nothing is strictly below `+inf` viewed from above: `+inf < x` is always
false. -/
theorem F.posinf_lt (x : F) : F.posinf.lt x = false := by
  cases x <;> rfl

/-- One axis of the clamp: on a box axis containing `x`, the clamp of `p` is
finite, is at least as close to `x` as `p` is, and is the closest box value
to `p` (both in squared form). -/
theorem clamp_axis (l u : F) (pq xq : Dy)
    (hlx : F.le l (.fin xq) = true) (hxu : F.le (.fin xq) u = true) :
    ∃ cq : Dy, clamp (.fin pq) l u = .fin cq ∧
      (cq.toQ - xq.toQ) ^ 2 ≤ (pq.toQ - xq.toQ) ^ 2 ∧
      (pq.toQ - cq.toQ) ^ 2 ≤ (pq.toQ - xq.toQ) ^ 2 := by
  cases l with
  | nan => simp [F.le] at hlx
  | posinf => simp [F.le] at hlx
  | neginf =>
    cases u with
    | nan => simp [F.le] at hxu
    | neginf => simp [F.le] at hxu
    | posinf => exact ⟨pq, rfl, le_refl _, by nlinarith [sq_nonneg (pq.toQ - xq.toQ)]⟩
    | fin uq =>
      rw [F.le_fin_iff] at hxu
      by_cases hup : (F.fin uq).lt (F.fin pq) = true
      · have hupq := (F.lt_fin_iff uq pq).mp hup
        refine ⟨uq, ?_, ?_, ?_⟩
        · rw [clamp, if_neg (by simp [F.lt]), if_pos hup]
        · nlinarith
        · nlinarith
      · refine ⟨pq, ?_, le_refl _, by nlinarith [sq_nonneg (pq.toQ - xq.toQ)]⟩
        rw [clamp, if_neg (by simp [F.lt]), if_neg (by simp [hup])]
  | fin lq =>
    rw [F.le_fin_iff] at hlx
    by_cases hpl : (F.fin pq).lt (F.fin lq) = true
    · have hplq := (F.lt_fin_iff pq lq).mp hpl
      refine ⟨lq, ?_, ?_, ?_⟩
      · rw [clamp, if_pos hpl]
      · nlinarith
      · nlinarith
    · have hplq : lq.toQ ≤ pq.toQ := by
        rcases le_or_lt lq.toQ pq.toQ with h | h
        · exact h
        · exact absurd ((F.lt_fin_iff pq lq).mpr h) hpl
      cases u with
      | nan => simp [F.le] at hxu
      | neginf => simp [F.le] at hxu
      | posinf =>
        refine ⟨pq, ?_, le_refl _, by nlinarith [sq_nonneg (pq.toQ - xq.toQ)]⟩
        rw [clamp, if_neg (by simp [hpl]), if_neg (by simp [F.lt])]
      | fin uq =>
        rw [F.le_fin_iff] at hxu
        by_cases hup : (F.fin uq).lt (F.fin pq) = true
        · have hupq := (F.lt_fin_iff uq pq).mp hup
          refine ⟨uq, ?_, ?_, ?_⟩
          · rw [clamp, if_neg (by simp [hpl]), if_pos hup]
          · nlinarith
          · nlinarith
        · refine ⟨pq, ?_, le_refl _, by nlinarith [sq_nonneg (pq.toQ - xq.toQ)]⟩
          rw [clamp, if_neg (by simp [hpl]), if_neg (by simp [hup])]

/-- One axis of the farthest-corner distance: the contribution dominates the
squared axis distance of `c` to any `x` inside the axis interval, unless it
is already `+inf`. -/
theorem furthestAxis_bound (l u : F) (cq xq : Dy)
    (hlx : F.le l (.fin xq) = true) (hxu : F.le (.fin xq) u = true) :
    furthestAxis (.fin cq) l u = .posinf ∨
      ∃ w : Dy, furthestAxis (.fin cq) l u = .fin w ∧
        (cq.toQ - xq.toQ) ^ 2 ≤ w.toQ := by
  cases l with
  | nan => simp [F.le] at hlx
  | posinf => simp [F.le] at hlx
  | neginf =>
    cases u with
    | nan => simp [F.le] at hxu
    | neginf => simp [F.le] at hxu
    | posinf => exact Or.inl rfl
    | fin uq => exact Or.inl rfl
  | fin lq =>
    rw [F.le_fin_iff] at hlx
    cases u with
    | nan => simp [F.le] at hxu
    | neginf => simp [F.le] at hxu
    | posinf => exact Or.inl rfl
    | fin uq =>
      rw [F.le_fin_iff] at hxu
      right
      have hsub : ∀ a b : Dy, (F.fin a).sub (F.fin b) = F.fin (a.sub b) := fun a b => rfl
      have habs : ∀ a : Dy, (F.fin a).abs = F.fin a.abs := fun a => rfl
      rw [furthestAxis, hsub, hsub, habs, habs]
      have hpickabs : ∀ vq : Dy,
          ((F.fin vq).sq = F.fin (vq.mul vq)) := fun vq => rfl
      by_cases hcmp : (F.fin (lq.sub cq).abs).lt (F.fin (uq.sub cq).abs) = true
      · have hcmpq := (F.lt_fin_iff _ _).mp hcmp
        rw [Dy.toQ_abs, Dy.toQ_abs, Dy.toQ_sub, Dy.toQ_sub] at hcmpq
        refine ⟨(uq.sub cq).abs.mul ((uq.sub cq).abs), ?_, ?_⟩
        · rw [if_pos hcmp, hpickabs]
        · rw [Dy.toQ_mul, Dy.toQ_abs, Dy.toQ_sub]
          have h1 : |cq.toQ - xq.toQ| ≤ |uq.toQ - cq.toQ| := by
            rw [abs_sub_le_iff]
            constructor
            · have := neg_abs_le (lq.toQ - cq.toQ)
              linarith [le_of_lt hcmpq]
            · linarith [le_abs_self (uq.toQ - cq.toQ)]
          calc (cq.toQ - xq.toQ) ^ 2 = |cq.toQ - xq.toQ| ^ 2 := (sq_abs _).symm
          _ ≤ |uq.toQ - cq.toQ| ^ 2 := pow_le_pow_left (abs_nonneg _) h1 2
          _ = |uq.toQ - cq.toQ| * |uq.toQ - cq.toQ| := by ring
      · have hcmpq : |uq.toQ - cq.toQ| ≤ |lq.toQ - cq.toQ| := by
          rcases le_or_lt |uq.toQ - cq.toQ| |lq.toQ - cq.toQ| with h | h
          · exact h
          · exfalso
            apply hcmp
            rw [F.lt_fin_iff, Dy.toQ_abs, Dy.toQ_abs, Dy.toQ_sub, Dy.toQ_sub]
            exact h
        refine ⟨(lq.sub cq).abs.mul ((lq.sub cq).abs), ?_, ?_⟩
        · rw [if_neg (by simp [hcmp]), hpickabs]
        · rw [Dy.toQ_mul, Dy.toQ_abs, Dy.toQ_sub]
          have h1 : |cq.toQ - xq.toQ| ≤ |lq.toQ - cq.toQ| := by
            rw [abs_sub_le_iff]
            constructor
            · linarith [neg_abs_le (lq.toQ - cq.toQ)]
            · have := le_abs_self (uq.toQ - cq.toQ)
              linarith
          calc (cq.toQ - xq.toQ) ^ 2 = |cq.toQ - xq.toQ| ^ 2 := (sq_abs _).symm
          _ ≤ |lq.toQ - cq.toQ| ^ 2 := pow_le_pow_left (abs_nonneg _) h1 2
          _ = |lq.toQ - cq.toQ| * |lq.toQ - cq.toQ| := by ring

/-- One axis of the farthest-corner distance from the `+inf` sentinel
coordinate: always `+inf` when the lower bound is not `+inf` or `nan`. -/
theorem furthestAxis_pad (l u : F) (hl : l = F.neginf ∨ ∃ q, l = F.fin q) :
    furthestAxis F.posinf l u = F.posinf := by
  rcases hl with rfl | ⟨q, rfl⟩
  · rw [furthestAxis,
      show (F.neginf.sub F.posinf).abs = F.posinf from rfl,
      show (F.posinf.lt ((u.sub F.posinf).abs)) = false from F.posinf_lt _,
      if_neg (by simp)]
    rfl
  · rw [furthestAxis,
      show ((F.fin q).sub F.posinf).abs = F.posinf from rfl,
      show (F.posinf.lt ((u.sub F.posinf).abs)) = false from F.posinf_lt _,
      if_neg (by simp)]
    rfl

/-- Finiteness of a value as an existence statement. -/
theorem isFinB_iff (v : F) : isFinB v = true ↔ ∃ q, v = .fin q := by
  cases v <;> simp [isFinB]

/-- Finiteness of a point, one coordinate at a time. -/
theorem ptFinite_cons (v : F) (rest : Pt) :
    ptFinite (v :: rest) ↔ isFinB v = true ∧ ptFinite rest := by
  simp [ptFinite]

/-- The sorting comparison is reflexive. -/
theorem F.cmpLe_refl (v : F) : F.cmpLe v v = true := by
  cases v <;> simp [F.cmpLe, Dy.ble_iff]

/-- On values that are finite or `+inf`, the sorting comparison implies the
IEEE comparison. -/
theorem cmpLe_to_le (a b : F) (ha : isFinB a = true ∨ a = .posinf)
    (hb : isFinB b = true ∨ b = .posinf) (h : F.cmpLe a b = true) : F.le a b = true := by
  rcases (by rcases ha with h1 | h1; exact (isFinB_iff a).mp h1 |>.elim fun q hq => Or.inl ⟨q, hq⟩; exact Or.inr h1 :
    (∃ q, a = F.fin q) ∨ a = F.posinf) with ⟨qa, rfl⟩ | rfl <;>
  rcases (by rcases hb with h1 | h1; exact (isFinB_iff b).mp h1 |>.elim fun q hq => Or.inl ⟨q, hq⟩; exact Or.inr h1 :
    (∃ q, b = F.fin q) ∨ b = F.posinf) with ⟨qb, rfl⟩ | rfl <;>
  simp_all [F.cmpLe, F.le]

/-- IEEE comparison is transitive. -/
theorem F.le_trans (a b c : F) (hab : F.le a b = true) (hbc : F.le b c = true) :
    F.le a c = true := by
  cases a <;> cases b <;> cases c <;> simp_all [F.le, Dy.ble_iff]
  exact hab.trans hbc

/-- Strict IEEE comparison implies the non-strict one. -/
theorem F.le_of_lt (a b : F) (h : F.lt a b = true) : F.le a b = true := by
  cases a <;> cases b <;> simp_all [F.lt, F.le, Dy.blt_iff, Dy.ble_iff]
  exact h.le

/-- Rational squared distance of a list to itself vanishes. -/
theorem dsqQ_self : ∀ a : List ℚ, dsqQ a a = 0 := by
  intro a
  induction a with
  | nil => rfl
  | cons a0 arest ih => rw [dsqQ, ih]; ring

/-- The componentwise clamp of a finite point into a box containing a finite
point `x` is finite, is at least as close to `x` as the point is, and is the
closest box point to the point (rationally, in squared form). -/
theorem closest_props : ∀ (p x l u : Pt), ptFinite p → ptFinite x → p.length = x.length →
    inVolP l x u →
    ptFinite (closestPt p l u) ∧
      dsqQ (ptQ (closestPt p l u)) (ptQ x) ≤ dsqQ (ptQ p) (ptQ x) ∧
      dsqQ (ptQ p) (ptQ (closestPt p l u)) ≤ dsqQ (ptQ p) (ptQ x) := by
  intro p
  induction p with
  | nil =>
    intro x l u _ _ _ _
    exact ⟨rfl, le_refl _, le_refl _⟩
  | cons p0 prest ih =>
    intro x l u hfp hfx hlen hvol
    cases x with
    | nil => simp at hlen
    | cons x0 xrest =>
      cases l with
      | nil => exact hvol.elim
      | cons l0 ls =>
        cases u with
        | nil => exact hvol.elim
        | cons u0 us =>
          obtain ⟨⟨hl0, hu0⟩, hvrest⟩ := hvol
          obtain ⟨hp0, hprest⟩ := (ptFinite_cons _ _).mp hfp
          obtain ⟨hx0, hxrest⟩ := (ptFinite_cons _ _).mp hfx
          obtain ⟨pq, rfl⟩ := (isFinB_iff _).mp hp0
          obtain ⟨xq, rfl⟩ := (isFinB_iff _).mp hx0
          obtain ⟨cq, hcq, hc1, hc2⟩ := clamp_axis l0 u0 pq xq hl0 hu0
          obtain ⟨hfc, hd1, hd2⟩ := ih xrest ls us hprest hxrest (by simpa using hlen) hvrest
          have hcp : closestPt (F.fin pq :: prest) (l0 :: ls) (u0 :: us) =
              clamp (F.fin pq) l0 u0 :: closestPt prest ls us := rfl
          rw [hcp, hcq]
          refine ⟨(ptFinite_cons _ _).mpr ⟨rfl, hfc⟩, ?_, ?_⟩
          · show (cq.toQ - xq.toQ) ^ 2 + dsqQ (ptQ (closestPt prest ls us)) (ptQ xrest) ≤
              (pq.toQ - xq.toQ) ^ 2 + dsqQ (ptQ prest) (ptQ xrest)
            exact add_le_add hc1 hd1
          · show (pq.toQ - cq.toQ) ^ 2 + dsqQ (ptQ prest) (ptQ (closestPt prest ls us)) ≤
              (pq.toQ - xq.toQ) ^ 2 + dsqQ (ptQ prest) (ptQ xrest)
            exact add_le_add hc2 hd2

/-- A box constraint forces the three lists to share one length. -/
theorem inVolP_length : ∀ (l x u : Pt), inVolP l x u →
    l.length = x.length ∧ u.length = x.length := by
  intro l
  induction l with
  | nil =>
    intro x u hv
    cases x with
    | nil =>
      cases u with
      | nil => exact ⟨rfl, rfl⟩
      | cons _ _ => exact hv.elim
    | cons _ _ => exact hv.elim
  | cons l0 ls ih =>
    intro x u hv
    cases x with
    | nil => exact hv.elim
    | cons x0 xs =>
      cases u with
      | nil => exact hv.elim
      | cons u0 us =>
        obtain ⟨_, hrest⟩ := hv
        obtain ⟨h1, h2⟩ := ih xs us hrest
        exact ⟨by simpa using h1, by simpa using h2⟩

/-- Lowering an upper bound to a value still above the point keeps the point
in the box. -/
theorem inVolP_set_upper : ∀ (l x u : Pt) (d : Nat) (t : F), inVolP l x u →
    F.le (x.getD d .nan) t = true → d < x.length → inVolP l x (u.set d t) := by
  intro l
  induction l with
  | nil =>
    intro x u d t hv _ hd
    cases x with
    | nil => simp at hd
    | cons _ _ => exact hv.elim
  | cons l0 ls ih =>
    intro x u d t hv hle hd
    cases x with
    | nil => exact hv.elim
    | cons x0 xs =>
      cases u with
      | nil => exact hv.elim
      | cons u0 us =>
        obtain ⟨⟨h1, h2⟩, hrest⟩ := hv
        cases d with
        | zero =>
          rw [List.getD_cons_zero] at hle
          exact ⟨⟨h1, hle⟩, hrest⟩
        | succ d =>
          rw [List.getD_cons_succ] at hle
          exact ⟨⟨h1, h2⟩, ih xs us d t hrest hle (by simpa using hd)⟩

/-- Raising a lower bound to a value still below the point keeps the point in
the box. -/
theorem inVolP_set_lower : ∀ (l x u : Pt) (d : Nat) (t : F), inVolP l x u →
    F.le t (x.getD d .nan) = true → d < x.length → inVolP (l.set d t) x u := by
  intro l
  induction l with
  | nil =>
    intro x u d t hv _ hd
    cases x with
    | nil => simp at hd
    | cons _ _ => exact hv.elim
  | cons l0 ls ih =>
    intro x u d t hv hle hd
    cases x with
    | nil => exact hv.elim
    | cons x0 xs =>
      cases u with
      | nil => exact hv.elim
      | cons u0 us =>
        obtain ⟨⟨h1, h2⟩, hrest⟩ := hv
        cases d with
        | zero =>
          rw [List.getD_cons_zero] at hle
          exact ⟨⟨hle, h2⟩, hrest⟩
        | succ d =>
          rw [List.getD_cons_succ] at hle
          exact ⟨⟨h1, h2⟩, ih xs us d t hrest hle (by simpa using hd)⟩

/-- Every point whose coordinates are finite or `+inf` lies in the all-space
root box. -/
theorem inVolP_root : ∀ (x : Pt) (D : Nat), x.length = D →
    (∀ v ∈ x, isFinB v = true ∨ v = .posinf) →
    inVolP (List.replicate D .neginf) x (List.replicate D .posinf) := by
  intro x
  induction x with
  | nil =>
    intro D hD _
    rw [← hD]
    exact trivial
  | cons x0 xs ih =>
    intro D hD hcl
    rw [← hD]
    simp only [List.length_cons, List.replicate_succ]
    refine ⟨⟨?_, ?_⟩, ih xs.length rfl (fun v hv => hcl v (List.mem_cons_of_mem _ hv))⟩
    · rcases hcl x0 (List.mem_cons_self _ _) with h | h
      · obtain ⟨q, rfl⟩ := (isFinB_iff _).mp h
        rfl
      · rw [h]; rfl
    · rcases hcl x0 (List.mem_cons_self _ _) with h | h
      · obtain ⟨q, rfl⟩ := (isFinB_iff _).mp h
        rfl
      · rw [h]; rfl

/-- The farthest-corner distance of a finite point over a box containing a
finite point `x` is `+inf` or a finite value dominating the squared distance
to `x`. -/
theorem furthest_props : ∀ (c x l u : Pt), ptFinite c → ptFinite x → c.length = x.length →
    inVolP l x u →
    furthestGo c l u = .posinf ∨
      ∃ w : Dy, furthestGo c l u = .fin w ∧ dsqQ (ptQ c) (ptQ x) ≤ w.toQ := by
  intro c
  induction c with
  | nil =>
    intro x l u _ _ hlen _
    cases x with
    | nil =>
      refine Or.inr ⟨Dy.zero, rfl, ?_⟩
      rw [Dy.toQ_zero]
      exact le_of_eq rfl
    | cons _ _ => simp at hlen
  | cons c0 crest ih =>
    intro x l u hfc hfx hlen hvol
    cases x with
    | nil => simp at hlen
    | cons x0 xrest =>
      cases l with
      | nil => exact hvol.elim
      | cons l0 ls =>
        cases u with
        | nil => exact hvol.elim
        | cons u0 us =>
          obtain ⟨⟨hl0, hu0⟩, hvrest⟩ := hvol
          obtain ⟨hc0, hcrest⟩ := (ptFinite_cons _ _).mp hfc
          obtain ⟨hx0, hxrest⟩ := (ptFinite_cons _ _).mp hfx
          obtain ⟨cq, rfl⟩ := (isFinB_iff _).mp hc0
          obtain ⟨xq, rfl⟩ := (isFinB_iff _).mp hx0
          have hfg : furthestGo (F.fin cq :: crest) (l0 :: ls) (u0 :: us) =
              (furthestAxis (F.fin cq) l0 u0).add (furthestGo crest ls us) := rfl
          rcases furthestAxis_bound l0 u0 cq xq hl0 hu0 with hax | ⟨w0, hax, hb0⟩ <;>
            rcases ih xrest ls us hcrest hxrest (by simpa using hlen) hvrest with
              hrest | ⟨wr, hrest, hbr⟩
          · rw [hfg, hax, hrest]; exact Or.inl rfl
          · rw [hfg, hax, hrest]; exact Or.inl rfl
          · rw [hfg, hax, hrest]; exact Or.inl rfl
          · rw [hfg, hax, hrest]
            refine Or.inr ⟨w0.add wr, rfl, ?_⟩
            rw [Dy.toQ_add]
            show (cq.toQ - xq.toQ) ^ 2 + dsqQ (ptQ crest) (ptQ xrest) ≤ w0.toQ + wr.toQ
            exact add_le_add hb0 hbr

/-- The farthest-corner distance from the all-`+inf` sentinel is `+inf` when
the box has positive dimension and descent-reachable lower bounds. -/
theorem furthestGo_pad : ∀ (n : Nat) (l u : Pt), l.length = n → u.length = n →
    lowerOK l → 0 < n → furthestGo (pad n) l u = .posinf := by
  intro n
  induction n with
  | zero => intro l u _ _ _ h; omega
  | succ n ih =>
    intro l u hl hu hok _
    cases l with
    | nil => simp at hl
    | cons l0 ls =>
      cases u with
      | nil => simp at hu
      | cons u0 us =>
        have hstep : furthestGo (pad (n + 1)) (l0 :: ls) (u0 :: us) =
            (furthestAxis F.posinf l0 u0).add (furthestGo (pad n) ls us) := rfl
        rw [hstep, furthestAxis_pad l0 u0 (by
          rcases hok l0 (List.mem_cons_self _ _) with h | ⟨q, hq⟩
          · exact Or.inl h
          · exact Or.inr ⟨q, hq⟩)]
        cases n with
        | zero =>
          have hls : ls = [] := by simpa using hl
          subst hls
          rfl
        | succ m =>
          rw [ih ls us (by simpa using hl) (by simpa using hu)
            (fun v hv => hok v (List.mem_cons_of_mem _ hv)) (by omega)]
          rfl

/-- When the farthest-corner distance of a finite point over its box is not
strictly positive, every finite point of the box reads rationally as that
point: the box has collapsed to a single value. -/
theorem furthest_eq_zero : ∀ (p x l u : Pt), ptFinite p → ptFinite x →
    p.length = x.length → inVolP l x u →
    F.lt (.fin Dy.zero) (furthestGo p l u) = false → ptQ x = ptQ p := by
  intro p
  induction p with
  | nil =>
    intro x l u _ _ hlen _ _
    cases x with
    | nil => rfl
    | cons _ _ => simp at hlen
  | cons p0 prest ih =>
    intro x l u hfp hfx hlen hvol hz
    cases x with
    | nil => simp at hlen
    | cons x0 xrest =>
      cases l with
      | nil => exact hvol.elim
      | cons l0 ls =>
        cases u with
        | nil => exact hvol.elim
        | cons u0 us =>
          obtain ⟨⟨hl0, hu0⟩, hvrest⟩ := hvol
          obtain ⟨hp0, hprest⟩ := (ptFinite_cons _ _).mp hfp
          obtain ⟨hx0, hxrest⟩ := (ptFinite_cons _ _).mp hfx
          obtain ⟨pq, rfl⟩ := (isFinB_iff _).mp hp0
          obtain ⟨xq, rfl⟩ := (isFinB_iff _).mp hx0
          have hfg : furthestGo (F.fin pq :: prest) (l0 :: ls) (u0 :: us) =
              (furthestAxis (F.fin pq) l0 u0).add (furthestGo prest ls us) := rfl
          rcases furthestAxis_bound l0 u0 pq xq hl0 hu0 with hax | ⟨w0, hax, hb0⟩ <;>
            rcases furthest_props prest xrest ls us hprest hxrest (by simpa using hlen)
              hvrest with hrest | ⟨wr, hrest, hbr⟩
          · rw [hfg, hax, hrest] at hz; simp [F.lt, F.add] at hz
          · rw [hfg, hax, hrest] at hz; simp [F.lt, F.add] at hz
          · rw [hfg, hax, hrest] at hz; simp [F.lt, F.add] at hz
          · rw [hfg, hax, hrest,
              show (F.fin w0).add (F.fin wr) = F.fin (w0.add wr) from rfl] at hz
            have hzq : w0.toQ + wr.toQ ≤ 0 := by
              by_contra hq
              push_neg at hq
              have hlt : (F.fin Dy.zero).lt (F.fin (w0.add wr)) = true := by
                rw [F.lt_fin_iff, Dy.toQ_zero, Dy.toQ_add]
                exact hq
              rw [hlt] at hz
              exact absurd hz (by simp)
            have hnn0 : 0 ≤ w0.toQ := le_trans (by positivity) hb0
            have hnnr : 0 ≤ wr.toQ := le_trans (dsqQ_nonneg _ _) hbr
            have hx0p : xq.toQ = pq.toQ := by nlinarith
            have hrz : F.lt (.fin Dy.zero) (furthestGo prest ls us) = false := by
              rw [hrest]
              cases hb : (F.fin Dy.zero).lt (F.fin wr) with
              | false => rfl
              | true =>
                rw [F.lt_fin_iff, Dy.toQ_zero] at hb
                nlinarith
            have hxr := ih xrest ls us hprest hxrest (by simpa using hlen) hvrest hrz
            show xq.toQ :: ptQ xrest = pq.toQ :: ptQ prest
            rw [hx0p, hxr]

/-- Elements of a sorted prefix compare at most the prefix boundary element
on the sort coordinate. -/
theorem sorted_le_getD (d : Nat) (s : List Pt)
    (hpw : s.Pairwise (fun a b => ptLe d a b = true)) (m : Nat) (hm : m < s.length)
    (q : Pt) (hq : q ∈ s.take (m + 1)) :
    F.cmpLe (coord q d) (coord (s.getD m []) d) = true := by
  rw [List.mem_take_iff_getElem] at hq
  obtain ⟨j, hj, hqe⟩ := hq
  rw [List.getD_eq_getElem _ _ hm, ← hqe]
  by_cases hjm : j = m
  · subst hjm
    exact F.cmpLe_refl _
  · have hjlt : j < m := by omega
    have := (List.pairwise_iff_get.mp hpw) ⟨j, by omega⟩ ⟨m, hm⟩ hjlt
    simpa [ptLe, List.get_eq_getElem] using this

/-- Elements of a sorted suffix compare at least the suffix boundary element
on the sort coordinate. -/
theorem sorted_ge_getD (d : Nat) (s : List Pt)
    (hpw : s.Pairwise (fun a b => ptLe d a b = true)) (m : Nat) (hm : m < s.length)
    (q : Pt) (hq : q ∈ s.drop m) :
    F.cmpLe (coord (s.getD m []) d) (coord q d) = true := by
  obtain ⟨j, hj, hqe⟩ := List.getElem_of_mem hq
  rw [List.getElem_drop] at hqe
  rw [List.getD_eq_getElem _ _ hm, ← hqe]
  by_cases hj0 : j = 0
  · subst hj0
    exact F.cmpLe_refl _
  · have hlt : m < m + j := by omega
    have hmj : m + j < s.length := by
      rw [List.length_drop] at hj
      omega
    have := (List.pairwise_iff_get.mp hpw) ⟨m, hm⟩ ⟨m + j, hmj⟩ hlt
    simpa [ptLe, List.get_eq_getElem] using this

/-- A value compares at most its mean with a larger value (on finite-or-inf
values). -/
theorem le_avg_left (a b : F) (ha : isFinB a = true ∨ a = .posinf)
    (hb : isFinB b = true ∨ b = .posinf) (hab : F.cmpLe a b = true) :
    F.le a (F.avg a b) = true := by
  rcases ha with ha | rfl
  · obtain ⟨qa, rfl⟩ := (isFinB_iff _).mp ha
    rcases hb with hb | rfl
    · obtain ⟨qb, rfl⟩ := (isFinB_iff _).mp hb
      have habq : qa.toQ ≤ qb.toQ := by
        rw [show F.cmpLe (F.fin qa) (F.fin qb) = qa.ble qb from rfl, Dy.ble_iff] at hab
        exact hab
      rw [show F.avg (F.fin qa) (F.fin qb) = F.fin ((qa.add qb).half) from rfl, F.le_fin_iff,
        Dy.toQ_half, Dy.toQ_add]
      linarith
    · rfl
  · rcases hb with hb | rfl
    · obtain ⟨qb, rfl⟩ := (isFinB_iff _).mp hb
      simp [F.cmpLe] at hab
    · rfl

/-- The mean of a value with a larger one compares at most the larger (on
finite-or-inf values). -/
theorem avg_le_right (a b : F) (ha : isFinB a = true ∨ a = .posinf)
    (hb : isFinB b = true ∨ b = .posinf) (hab : F.cmpLe a b = true) :
    F.le (F.avg a b) b = true := by
  rcases ha with ha | rfl
  · obtain ⟨qa, rfl⟩ := (isFinB_iff _).mp ha
    rcases hb with hb | rfl
    · obtain ⟨qb, rfl⟩ := (isFinB_iff _).mp hb
      have habq : qa.toQ ≤ qb.toQ := by
        rw [show F.cmpLe (F.fin qa) (F.fin qb) = qa.ble qb from rfl, Dy.ble_iff] at hab
        exact hab
      rw [show F.avg (F.fin qa) (F.fin qb) = F.fin ((qa.add qb).half) from rfl, F.le_fin_iff,
        Dy.toQ_half, Dy.toQ_add]
      linarith
    · rfl
  · rcases hb with hb | rfl
    · obtain ⟨qb, rfl⟩ := (isFinB_iff _).mp hb
      simp [F.cmpLe] at hab
    · rfl

/-- C9: on the 1-dimensional input `[[0.0], [2.0], [4.0]]` the built `PkdTree`
answers `query1([-1.0]) = 0`, `query1([0.5]) = 0`, `query1([1.5]) = 1`,
`query1([2.5]) = 1`, `query1([3.5]) = 2` and `query1([4.5]) = 2`. -/
theorem c9_seed_queries :
    (PkdTree.new 1 seedPts1d).query1 [fI (-1)] = 0 ∧
    (PkdTree.new 1 seedPts1d).query1 [.fin ⟨1, 1⟩] = 0 ∧
    (PkdTree.new 1 seedPts1d).query1 [.fin ⟨3, 1⟩] = 1 ∧
    (PkdTree.new 1 seedPts1d).query1 [.fin ⟨5, 1⟩] = 1 ∧
    (PkdTree.new 1 seedPts1d).query1 [.fin ⟨7, 1⟩] = 2 ∧
    (PkdTree.new 1 seedPts1d).query1 [.fin ⟨9, 1⟩] = 2 := by
  decide

/-- C10: building a `PkdTree` from an empty point slice succeeds and produces
an empty test array and the single padding leaf `(+inf, ..., +inf)`; on that
tree `query1` returns `0` for every needle. -/
theorem c10_empty_build (D : Nat) (needle : Pt) :
    (PkdTree.new D []).tests = [] ∧ (PkdTree.new D []).points = [pad D] ∧
    (PkdTree.new D []).query1 needle = 0 :=
  ⟨rfl, rfl, rfl⟩

/-- C3 (failing input): on the four points `exactBugPts` with needle
`(-1, 149.5)`, `query1_exact` returns leaf `0` (the point `(-20, 0)`, at
squared distance `22711.25`), although leaf `1` (the point `(-2, 300)`, at
squared distance `22651.25`) is strictly closer, so the returned index does
not minimize `distsq(n, get_point(j))`.  The cause: when walking back up, the
source compares `needle[i % D]` against the ancestor split value, but the
ancestor at step `i` splits on axis `(log2(N2) - 1 - i) % D`; here the leaf's
parent is a `y`-split at `150` and the code compares the needle's `x`
coordinate, `|-1 - 150| = 151`, against the best distance `sqrt(22711.25)`
and wrongly prunes the sibling holding the true nearest neighbor. -/
theorem c3_failing_eval :
    (PkdTree.new 2 exactBugPts).query1_exact exactBugNeedle = some 0 ∧
    F.lt (distsq exactBugNeedle ((PkdTree.new 2 exactBugPts).get_point 1))
      (distsq exactBugNeedle ((PkdTree.new 2 exactBugPts).get_point 0)) = true := by
  decide

/-- C1 (counterexample): on `affBoundaryPts` with declared range `(0, 4)`,
the query center `(2, 0)` and legal `r^2 = 4` admit the indexed point
`(0, 0)` at squared distance exactly `4 <= r^2`, yet `collides` returns
`false`: the build pruned `(0, 0)` from the right half because its squared
distance to the right child volume is exactly `rsq_max` and the filter
`distsq_to < rsq_max` is strict. -/
theorem c1_counterexample :
    F.le (distsq [fI 0, fI 0] [fI 2, fI 0]) (fI 4) = true ∧
    ((AffordanceTree.new 2 affBoundaryPts (fI 0, fI 4)).map fun t =>
      t.collides [fI 2, fI 0] (fI 4)) = some (some false) := by
  decide

/-- C2 (failing input): on `simdBugPts` with declared range `(0, 1)` and the
two lanes `(-5, r^2 = 1)` and `(20, r^2 = 1)`, no indexed point lies within
squared distance `1` of either center — both scalar `collides` calls return
`false` — yet `collides_simd` returns `true`: lane 1 retires after its
1-element slice, the loop continues for lane 0, and the retired lane's
masked gather yields distance `0 < 1`. -/
theorem c2_failing_eval :
    ((AffordanceTree.new 1 simdBugPts (fI 0, fI 1)).map fun t =>
      (t.collides_simd [([fI (-5)], fI 1), ([fI 20], fI 1)],
       t.collides [fI (-5)] (fI 1),
       t.collides [fI 20] (fI 1))) = some (true, some false, some false) := by
  decide

/-- C6 (counterexample): construction does not return a failure indication on
the pathological input the claim names: with all points coincident and a
declared range requiring separation (`rsq_min = 1 > 0`), `AffordanceTree::new`
still returns a tree.  (In the source the constructor returns `Self`, not a
sum type; the only failure is the `assert!(D < u8::MAX)` panic, which the
model's `Option` encodes.) -/
theorem c6_counterexample :
    (AffordanceTree.new 2 [[fI 0, fI 0], [fI 0, fI 0]] (fI 1, fI 2)).isSome = true := by
  decide

/-- One SIMD descent iteration advances every lane independently, so the
lockstep loop is the per-lane scalar loop. -/
theorem descendLoopSimd_eq_map (D : Nat) (tests : List F) :
    ∀ (count i : Nat) (lanes : List (Pt × Nat)),
      descendLoopSimd D tests i lanes count =
        lanes.map fun l => (l.1, descendLoop D tests l.1 i l.2 count) := by
  intro count
  induction count with
  | zero => intro i lanes; simp [descendLoopSimd, descendLoop]
  | succ k ih =>
    intro i lanes
    simp only [descendLoopSimd, descendLoop, ih, List.map_map]
    rfl

/-- C4: for every `PkdTree`, every lane count, and every batch of needles,
the SIMD query `query` returns in each lane exactly the leaf index the scalar
`query1` returns on that lane's needle. -/
theorem c4_simd_matches_scalar {D : Nat} (t : PkdTree D) (needles : List Pt) :
    t.query needles = needles.map t.query1 := by
  simp only [PkdTree.query, PkdTree.query1, descendLoopSimd_eq_map, List.map_map]
  rfl

/-- C5: for every built `AffordanceTree`, the scalar `collides` faults (the
two `assert!` calls; `none` in the model) exactly when `r_squared` falls
outside the declared range, and under the precondition
`rsq_min <= r_squared <= rsq_max` it returns a boolean unconditionally. -/
theorem c5_collides_total (D : Nat) (ps : List Pt) (rsq : F × F) (c : Pt) (r : F)
    (hD : D < 255) :
    ((AffordanceTree.new D ps rsq).map fun t => (t.collides c r).isSome) =
      some (rsq.1.le r && r.le rsq.2) := by
  simp only [AffordanceTree.new, if_pos hD, Option.map_some]
  cases h1 : rsq.1.le r <;> cases h2 : r.le rsq.2 <;>
    simp [AffordanceTree.collides, h1, h2]

/-- Witness for `c5_collides_total` at a concrete input: a 1-dimensional
tree with declared range `(0, 1)` and the legal query `r^2 = 1`. -/
theorem c5_collides_total_witness :
    ((AffordanceTree.new 1 [[fI 0]] (fI 0, fI 1)).map fun t =>
      (t.collides [fI 5] (fI 1)).isSome) = some true := by
  simpa using c5_collides_total 1 [[fI 0]] (fI 0, fI 1) [fI 5] (fI 1) (by decide)

/-- The affordance list of a leaf starts with the cell center, whatever the
retained candidates are. -/
theorem leafList_headD (rsq : F × F) (vol : Volume) (c : Pt) (cands : List Pt) (x : Pt) :
    (leafList rsq vol c cands).headD x = c := by
  unfold leafList
  cases cands.filter (leafRetain rsq vol c) <;> rfl

/-- Affordance lists are never empty: the cell center is always present. -/
theorem leafList_ne (rsq : F × F) (vol : Volume) (c : Pt) (cands : List Pt) :
    leafList rsq vol c cands ≠ [] := by
  unfold leafList
  cases cands.filter (leafRetain rsq vol c) <;> simp

/-- The heads of the per-leaf affordance lists are exactly the points placed
at the leaves by the recursive partition. -/
theorem buildAff_heads (D : Nat) (rsq : F × F) :
    ∀ (k : Nat) (pts : List Pt) (d : Nat) (cands : List Pt) (vol : Volume),
      (leavesT (buildAff D rsq k pts d cands vol)).map (fun l => l.headD (pad D)) =
        partitionLeaves D k pts d := by
  intro k
  induction k with
  | zero =>
    intro pts d cands vol
    simp only [buildAff, partitionLeaves, leavesT, List.map_cons, List.map_nil]
    rw [leafList_headD]
  | succ k ih =>
    intro pts d cands vol
    by_cases h : pts.length ≤ 1
    · simp only [buildAff, partitionLeaves, if_pos h, leavesT, List.map_cons, List.map_nil]
      rw [leafList_headD]
    · simp only [buildAff, partitionLeaves, if_neg h, leavesT, List.map_append, ih]

/-- Every per-leaf affordance list of a build is nonempty. -/
theorem buildAff_lists_ne (D : Nat) (rsq : F × F) :
    ∀ (k : Nat) (pts : List Pt) (d : Nat) (cands : List Pt) (vol : Volume),
      ∀ l ∈ leavesT (buildAff D rsq k pts d cands vol), l ≠ [] := by
  intro k
  induction k with
  | zero =>
    intro pts d cands vol l hl
    simp only [buildAff, leavesT, List.mem_singleton] at hl
    exact hl ▸ leafList_ne _ _ _ _
  | succ k ih =>
    intro pts d cands vol l hl
    by_cases h : pts.length ≤ 1
    · simp only [buildAff, if_pos h, leavesT, List.mem_singleton] at hl
      exact hl ▸ leafList_ne _ _ _ _
    · simp only [buildAff, if_neg h, leavesT, List.mem_append] at hl
      rcases hl with hl | hl
      · exact ih _ _ _ _ _ hl
      · exact ih _ _ _ _ _ hl

/-- Reading `aff_starts`: entry `i` is the total length of the first `i`
lists. -/
theorem startsOf_getD (ls : List (List Pt)) (i : Nat) (hi : i < ls.length + 1) :
    (startsOf ls).getD i 0 = (((ls.take i).map List.length).sum) := by
  unfold startsOf
  rw [List.getD_eq_getElem]
  · simp
  · simpa using hi

/-- The element of a flattening at the start offset of the `i`-th list is
that list's head. -/
theorem flatten_getD_sum :
    ∀ (ls : List (List Pt)) (i : Nat), i < ls.length → ls.getD i [] ≠ [] →
      ls.flatten.getD (((ls.take i).map List.length).sum) [] = (ls.getD i []).headD [] := by
  intro ls
  induction ls with
  | nil => intro i hi; simp at hi
  | cons a rest ih =>
    intro i hi hne
    cases i with
    | zero =>
      rw [List.getD_cons_zero] at hne
      simp only [List.take_zero, List.map_nil, List.sum_nil, List.flatten_cons,
        List.getD_cons_zero]
      cases a with
      | nil => exact absurd rfl hne
      | cons x xs => simp
    | succ i =>
      simp only [List.take_succ_cons, List.map_cons, List.sum_cons, List.flatten_cons]
      rw [List.getD_append_right _ _ _ _ (by omega)]
      simp only [Nat.add_sub_cancel_left]
      simp only [List.length_cons, Nat.succ_lt_succ_iff] at hi
      rw [List.getD_cons_succ] at hne ⊢
      exact ih i hi hne

/-- The head of a nonempty list does not depend on the `headD` default. -/
theorem headD_congr {α : Type} (l : List α) (a b : α) (h : l ≠ []) :
    l.headD a = l.headD b := by
  cases l with
  | nil => exact absurd rfl h
  | cons x xs => rfl

/-- C7: after every affordance build, the first element of leaf `i`'s
affordance slice — `points[aff_starts[i]]` — is that leaf's center point, the
single point placed at leaf `i` by the recursive partition of the padded
input. -/
theorem c7_center_first (D : Nat) (ps : List Pt) (rsq : F × F) (t : AffordanceTree D)
    (h : AffordanceTree.new D ps rsq = some t) (i : Nat) (hi : i < t.aff_lists.length) :
    t.points.getD (t.aff_starts.getD i 0) [] =
      (partitionLeaves D (clog2 ps.length) (padded D ps) 0).getD i (pad D) := by
  by_cases hD : D < 255
  · rw [AffordanceTree.new, if_pos hD] at h
    injection h with h
    subst h
    dsimp only [AffordanceTree.points, AffordanceTree.aff_starts,
      AffordanceTree.aff_lists] at hi ⊢
    have hne : (leavesT (buildAff D rsq (clog2 ps.length) (padded D ps) 0 (padded D ps)
        ⟨List.replicate D .neginf, List.replicate D .posinf⟩)).getD i [] ≠ [] := by
      have hmem := @List.getElem_mem _ (leavesT (buildAff D rsq (clog2 ps.length)
        (padded D ps) 0 (padded D ps) ⟨List.replicate D .neginf, List.replicate D .posinf⟩))
        i hi
      rw [← List.getD_eq_getElem _ [] hi] at hmem
      exact buildAff_lists_ne D rsq _ _ _ _ _ _ hmem
    rw [startsOf_getD _ _ (by omega), flatten_getD_sum _ _ hi hne,
      headD_congr _ _ (pad D) hne,
      ← buildAff_heads D rsq (clog2 ps.length) (padded D ps) 0 (padded D ps)
        ⟨List.replicate D .neginf, List.replicate D .posinf⟩]
    exact (@List.getD_map _ _ (leavesT (buildAff D rsq (clog2 ps.length) (padded D ps) 0
      (padded D ps) ⟨List.replicate D .neginf, List.replicate D .posinf⟩)) [] i
      (fun l => l.headD (pad D))).symm
  · rw [AffordanceTree.new, if_neg hD] at h
    exact absurd h (by simp)

/-- Witness for `c7_center_first` at a concrete input: a 1-dimensional
two-point tree, leaf 0. -/
theorem c7_center_first_witness :
    ((AffordanceTree.new 1 [[fI 0], [fI 2]] (fI 0, fI 1)).getD (dfltAff 1)).points.getD
        (((AffordanceTree.new 1 [[fI 0], [fI 2]] (fI 0, fI 1)).getD (dfltAff 1)).aff_starts.getD 0 0) [] =
      (partitionLeaves 1 (clog2 2) (padded 1 [[fI 0], [fI 2]]) 0).getD 0 (pad 1) :=
  c7_center_first 1 [[fI 0], [fI 2]] (fI 0, fI 1) _ rfl 0 (by decide)

/-- C6 (amended): construction is infallible for `D < 255`: it returns a tree
for every point slice and every declared range, coincident points included;
the only construction failure is the hard `assert!` panic when `D >= 255`,
not a returned sum-type value. -/
theorem c6_amended (D : Nat) (ps : List Pt) (rsq : F × F) (h : D < 255) :
    (AffordanceTree.new D ps rsq).isSome = true := by
  simp [AffordanceTree.new, h]

/-- Witness for `c6_amended` at a concrete input. -/
theorem c6_amended_witness :
    (AffordanceTree.new 2 [[fI 0, fI 0], [fI 3, fI 1]] (fI 0, fI 1)).isSome = true :=
  c6_amended 2 [[fI 0, fI 0], [fI 3, fI 1]] (fI 0, fI 1) (by decide)

/-- The sorted slice underlying the spec-modelled `median_partition`. -/
theorem median_partition_fst (pts : List Pt) (d : Nat) :
    (median_partition pts d).1 = sortBy (ptLe d) pts := rfl

/-- The split value produced by the spec-modelled `median_partition`: the mean
of the two middle coordinates of the sorted slice. -/
theorem median_partition_snd (pts : List Pt) (d : Nat) :
    (median_partition pts d).2 =
      F.avg (coord ((sortBy (ptLe d) pts).getD (pts.length / 2 - 1) []) d)
            (coord ((sortBy (ptLe d) pts).getD (pts.length / 2) []) d) := rfl

/-- Unfolded node case of the affordance build on a slice longer than one. -/
theorem buildAff_node (D : Nat) (rsq : F × F) (k : Nat) (pts : List Pt) (d : Nat)
    (cands : List Pt) (lo up : Pt) (h : ¬ pts.length ≤ 1) :
    buildAff D rsq (k + 1) pts d cands ⟨lo, up⟩ = .node (median_partition pts d).2
      (buildAff D rsq k ((median_partition pts d).1.take (pts.length / 2)) ((d + 1) % D)
        (cands.filter (nodeRetain rsq ⟨lo, up.set d (median_partition pts d).2⟩))
        ⟨lo, up.set d (median_partition pts d).2⟩)
      (buildAff D rsq k ((median_partition pts d).1.drop (pts.length / 2)) ((d + 1) % D)
        (cands.filter (nodeRetain rsq ⟨lo.set d (median_partition pts d).2, up⟩))
        ⟨lo.set d (median_partition pts d).2, up⟩) := by
  rw [buildAff, if_neg h]
  rfl

/-- An affordance build over a power-of-two slice is a perfect tree of the
matching depth. -/
theorem buildAff_perfect (D : Nat) (rsq : F × F) :
    ∀ (k : Nat) (pts : List Pt) (d : Nat) (cands : List Pt) (vol : Volume),
      pts.length = 2 ^ k → Perfect (buildAff D rsq k pts d cands vol) k := by
  intro k
  induction k with
  | zero => intro pts d cands vol _; exact Perfect.leaf _
  | succ k ih =>
    intro pts d cands vol hlen
    have hp : 0 < 2 ^ k := pow_pos (by norm_num) k
    have h2 : 2 ^ (k + 1) = 2 ^ k * 2 := pow_succ 2 k
    obtain ⟨lo, up⟩ := vol
    rw [buildAff_node D rsq k pts d cands lo up (by omega)]
    have hslen : (median_partition pts d).1.length = 2 ^ (k + 1) := by
      rw [median_partition_fst, sortBy_length, hlen]
    refine Perfect.node _ _ _ k (ih _ _ _ _ ?_) (ih _ _ _ _ ?_)
    · rw [List.length_take, hslen, hlen]; omega
    · rw [List.length_drop, hslen, hlen]; omega

/-- Cutting a flattening at the running-length offsets of list `i` recovers
list `i`. -/
theorem flatten_slice :
    ∀ (ls : List (List Pt)) (i : Nat), i < ls.length →
      (ls.flatten.drop (((ls.take i).map List.length).sum)).take
          ((((ls.take (i + 1)).map List.length).sum) -
            (((ls.take i).map List.length).sum)) = ls.getD i [] := by
  intro ls
  induction ls with
  | nil => intro i hi; simp at hi
  | cons a rest ih =>
    intro i hi
    cases i with
    | zero =>
      simp only [List.take_zero, List.map_nil, List.sum_nil, List.flatten_cons,
        List.drop_zero, List.take_succ_cons, List.map_cons, List.sum_cons,
        Nat.sub_zero, Nat.add_zero, List.getD_cons_zero]
      exact List.take_left a rest.flatten
    | succ i =>
      simp only [List.take_succ_cons, List.map_cons, List.sum_cons, List.flatten_cons,
        List.getD_cons_succ]
      rw [List.drop_append, Nat.add_sub_add_left]
      exact ih i (by simpa using hi)

/-- The affordance slice of leaf `i` is the `i`-th per-leaf list. -/
theorem affSlice_eq {D : Nat} (t : AffordanceTree D) (i : Nat)
    (hi : i < t.aff_lists.length) :
    t.affSlice i = t.aff_lists.getD i [] := by
  show ((t.aff_lists.flatten.drop ((startsOf t.aff_lists).getD i 0)).take
    ((startsOf t.aff_lists).getD (i + 1) 0 - (startsOf t.aff_lists).getD i 0)) =
    t.aff_lists.getD i []
  rw [startsOf_getD _ _ (by omega), startsOf_getD _ _ (by omega)]
  exact flatten_slice t.aff_lists i hi

/-- When the queried radius is inside the declared range, the scalar
`collides` of a built affordance tree scans exactly the affordance list of
the leaf the structural descent reaches. -/
theorem collides_eq_scan (D : Nat) (ps : List Pt) (rsq : F × F) (t : AffordanceTree D)
    (ht : AffordanceTree.new D ps rsq = some t) (x : Pt) (r : F)
    (h1 : F.le rsq.1 r = true) (h2 : F.le r rsq.2 = true) :
    t.collides x r =
      some ((descendLeaf D t.tree x 0).any fun pt => (distsq pt x).le r) := by
  by_cases hD : D < 255
  · rw [AffordanceTree.new, if_pos hD] at ht
    injection ht with ht
    subst ht
    have hP : Perfect (buildAff D rsq (clog2 ps.length) (padded D ps) 0 (padded D ps)
        ⟨List.replicate D F.neginf, List.replicate D F.posinf⟩) (clog2 ps.length) :=
      buildAff_perfect D rsq (clog2 ps.length) (padded D ps) 0 (padded D ps)
        ⟨List.replicate D F.neginf, List.replicate D F.posinf⟩ (padded_length D ps)
    generalize hT : buildAff D rsq (clog2 ps.length) (padded D ps) 0 (padded D ps)
        ⟨List.replicate D F.neginf, List.replicate D F.posinf⟩ = T at hP ⊢
    have hlen : (testsArr T).length = 2 ^ clog2 ps.length - 1 := testsArr_length hP
    have hp : 0 < 2 ^ clog2 ps.length := pow_pos (by norm_num) _
    have hlog : log2 ((testsArr T).length + 1) = clog2 ps.length := by
      rw [hlen, show 2 ^ clog2 ps.length - 1 + 1 = 2 ^ clog2 ps.length from by omega,
        log2_pow]
    have hbr := descend_bridge D x (clog2 ps.length) T hP (clog2 ps.length) le_rfl 0 0
      (by simp)
    simp only [Nat.sub_self, pow_zero, Nat.zero_add, Nat.zero_mul, subtreeAt] at hbr
    unfold AffordanceTree.collides
    simp only [h1, h2, decide_eq_true_eq, Bool.not_true, Bool.false_eq_true, if_false]
    rw [hlog, hbr, hlen,
      show 2 ^ clog2 ps.length - 1 + descendIdx D T x 0 - (2 ^ clog2 ps.length - 1) =
        descendIdx D T x 0 from by omega]
    have hil : descendIdx D T x 0 <
        (AffordanceTree.mk T rsq : AffordanceTree D).aff_lists.length :=
      descendIdx_lt D T x 0
    rw [affSlice_eq _ _ hil]
    rw [show (AffordanceTree.mk T rsq : AffordanceTree D).aff_lists = leavesT T from rfl,
      leavesT_getD_descendIdx]
  · rw [AffordanceTree.new, if_neg hD] at ht
    exact absurd ht (by simp)

/-- Unfolded leaf retain predicate with the volume split into its bounds. -/
theorem leafRetain_eq (rsq : F × F) (lo up : Pt) (c q : Pt) :
    leafRetain rsq ⟨lo, up⟩ c q =
      (!(ptEqb c q) && (distsq q (closestPt q lo up)).lt rsq.2
        && (distsq q (closestPt q lo up)).lt (furthestGo c lo up)
        && rsq.1.lt (distsq c (closestPt q lo up))) := rfl

/-- Unfolded node retain predicate with the volume split into its bounds. -/
theorem nodeRetain_eq (rsq : F × F) (lo up : Pt) (q : Pt) :
    nodeRetain rsq ⟨lo, up⟩ q =
      (rsq.1.lt (furthestGo q lo up) && (distsq (closestPt q lo up) q).lt rsq.2) := rfl

/-- The cell center is a member of its affordance list. -/
theorem mem_leafList_center (rsq : F × F) (vol : Volume) (c : Pt) (cands : List Pt) :
    c ∈ leafList rsq vol c cands := by
  have he : leafList rsq vol c cands = match cands.filter (leafRetain rsq vol c) with
    | [] => [c]
    | r1 :: rest => c :: (rest ++ [r1]) := rfl
  rw [he]
  cases cands.filter (leafRetain rsq vol c) with
  | nil => exact List.mem_singleton.mpr rfl
  | cons r1 rest => exact List.mem_cons_self _ _

/-- Retained candidates are members of the affordance list (their first
element is rotated to the back, after the center). -/
theorem mem_leafList_retained (rsq : F × F) (vol : Volume) (c : Pt) (cands : List Pt)
    (q : Pt) (hq : q ∈ cands.filter (leafRetain rsq vol c)) :
    q ∈ leafList rsq vol c cands := by
  have he : leafList rsq vol c cands = match cands.filter (leafRetain rsq vol c) with
    | [] => [c]
    | r1 :: rest => c :: (rest ++ [r1]) := rfl
  rw [he]
  cases hf : cands.filter (leafRetain rsq vol c) with
  | nil => rw [hf] at hq; simp at hq
  | cons r1 rest =>
    rw [hf] at hq
    rcases List.mem_cons.mp hq with rfl | hq2
    · exact List.mem_cons_of_mem _ (List.mem_append_right _ (List.mem_singleton.mpr rfl))
    · exact List.mem_cons_of_mem _ (List.mem_append_left _ hq2)

/-- The componentwise clamp preserves the length of aligned lists. -/
theorem closestPt_length : ∀ (p l u : Pt), p.length = l.length → l.length = u.length →
    (closestPt p l u).length = p.length := by
  intro p
  induction p with
  | nil => intro l u _ _; rfl
  | cons p0 ps ih =>
    intro l u h1 h2
    cases l with
    | nil => simp at h1
    | cons l0 ls =>
      cases u with
      | nil => simp at h2
      | cons u0 us =>
        show (clamp p0 l0 u0 :: closestPt ps ls us).length = _
        simp only [List.length_cons]
        rw [ih ls us (by simpa using h1) (by simpa using h2)]

/-- Rational readings preserve length. -/
theorem ptQ_length (p : Pt) : (ptQ p).length = p.length := by
  simp [ptQ]

/-- Squared distance from the sentinel to a finite point of positive
dimension is `+inf`. -/
theorem distsq_pad : ∀ (n : Nat) (q : Pt), ptFinite q → q.length = n → 0 < n →
    distsq (pad n) q = .posinf := by
  intro n
  induction n with
  | zero => intro q _ _ h; omega
  | succ n ih =>
    intro q hqf hql _
    cases q with
    | nil => simp at hql
    | cons q0 qs =>
      obtain ⟨hq0, hqs⟩ := (ptFinite_cons _ _).mp hqf
      obtain ⟨qq, rfl⟩ := (isFinB_iff _).mp hq0
      have hstep : distsq (pad (n + 1)) (F.fin qq :: qs) =
          ((F.posinf.sub (F.fin qq)).sq).add (distsq (pad n) qs) := rfl
      rw [hstep]
      cases n with
      | zero =>
        have hqnil : qs = [] := by simpa using hql
        subst hqnil
        rfl
      | succ m =>
        rw [ih qs hqs (by simpa using hql) (by omega)]
        rfl

/-- The mean of two fin-or-`+inf` values is fin or `+inf`. -/
theorem avg_class (a b : F) (ha : (∃ q, a = F.fin q) ∨ a = .posinf)
    (hb : (∃ q, b = F.fin q) ∨ b = .posinf) :
    (∃ q, F.avg a b = F.fin q) ∨ F.avg a b = .posinf := by
  rcases ha with ⟨qa, rfl⟩ | rfl <;> rcases hb with ⟨qb, rfl⟩ | rfl
  · exact Or.inl ⟨(qa.add qb).half, rfl⟩
  · exact Or.inr rfl
  · exact Or.inr rfl
  · exact Or.inr rfl

/-- Adapter between the two spellings of the fin-or-`+inf` class. -/
theorem classB_of_class (v : F) (h : (∃ q, v = F.fin q) ∨ v = .posinf) :
    isFinB v = true ∨ v = .posinf := by
  rcases h with ⟨q, rfl⟩ | rfl
  · exact Or.inl rfl
  · exact Or.inr rfl

/-- Setting a fin-or-`+inf` value keeps an upper-bound list descent-legal. -/
theorem upperOK_set (up : Pt) (d : Nat) (t : F) (hok : upperOK up)
    (ht : (∃ q, t = F.fin q) ∨ t = .posinf) : upperOK (up.set d t) := by
  intro v hv
  rcases List.mem_or_eq_of_mem_set hv with hv | rfl
  · exact hok v hv
  · rcases ht with ⟨q, hq⟩ | hq
    · exact Or.inr ⟨q, hq⟩
    · exact Or.inl hq

/-- Setting a finite value keeps a lower-bound list descent-legal. -/
theorem lowerOK_set (lo : Pt) (d : Nat) (t : F) (hok : lowerOK lo)
    (ht : ∃ q, t = F.fin q) : lowerOK (lo.set d t) := by
  intro v hv
  rcases List.mem_or_eq_of_mem_set hv with hv | rfl
  · exact hok v hv
  · exact Or.inr ht

/-- The descent into an affordance build reaches a list containing a point of
the slice: the reached cell's center. -/
theorem descend_center_mem (D : Nat) (rsq : F × F) (x : Pt) :
    ∀ (k : Nat) (pts : List Pt) (d i : Nat) (cands : List Pt) (vol : Volume),
      pts.length = 2 ^ k →
      ∃ c, c ∈ pts ∧ c ∈ descendLeaf D (buildAff D rsq k pts d cands vol) x i := by
  intro k
  induction k with
  | zero =>
    intro pts d i cands vol hlen
    cases pts with
    | nil => simp at hlen
    | cons c0 rest =>
      have hrnil : rest = [] := by simpa using hlen
      subst hrnil
      refine ⟨c0, List.mem_singleton.mpr rfl, ?_⟩
      show c0 ∈ leafList rsq vol c0 cands
      exact mem_leafList_center rsq vol c0 cands
  | succ k ih =>
    intro pts d i cands vol hlen
    have hp : 0 < 2 ^ k := pow_pos (by norm_num) k
    have h2 : 2 ^ (k + 1) = 2 ^ k * 2 := pow_succ 2 k
    obtain ⟨lo, up⟩ := vol
    rw [buildAff_node D rsq k pts d cands lo up (by omega)]
    have hslen : (median_partition pts d).1.length = 2 ^ (k + 1) := by
      rw [median_partition_fst, sortBy_length, hlen]
    rw [descendLeaf]
    split_ifs with hlt
    · obtain ⟨c, hc, hcm⟩ := ih ((median_partition pts d).1.take (pts.length / 2))
        ((d + 1) % D) (i + 1) _ _ (by rw [List.length_take, hslen, hlen]; omega)
      refine ⟨c, ?_, hcm⟩
      rw [median_partition_fst] at hc
      exact (sortBy_perm (ptLe d) pts).mem_iff.mp (List.take_subset _ _ hc)
    · obtain ⟨c, hc, hcm⟩ := ih ((median_partition pts d).1.drop (pts.length / 2))
        ((d + 1) % D) (i + 1) _ _ (by rw [List.length_drop, hslen, hlen]; omega)
      refine ⟨c, ?_, hcm⟩
      rw [median_partition_fst] at hc
      exact (sortBy_perm (ptLe d) pts).mem_iff.mp (List.drop_subset _ _ hc)

/-- A box whose upper bounds are all `+inf` has farthest-corner distance
`+inf` from any finite point (positive dimension, legal lower bounds). -/
theorem furthestGo_posinf_up : ∀ (n : Nat) (p l u : Pt), ptFinite p →
    p.length = n → l.length = n → u.length = n → 0 < n →
    lowerOK l → (∀ v ∈ u, v = .posinf) → furthestGo p l u = .posinf := by
  intro n
  induction n with
  | zero => intro p l u _ _ _ _ h _ _; omega
  | succ n ih =>
    intro p l u hpf hpl hll hul _ hlok hup
    cases p with
    | nil => simp at hpl
    | cons p0 ps =>
      cases l with
      | nil => simp at hll
      | cons l0 ls =>
        cases u with
        | nil => simp at hul
        | cons u0 us =>
          obtain ⟨hp0, hps⟩ := (ptFinite_cons _ _).mp hpf
          obtain ⟨pq, rfl⟩ := (isFinB_iff _).mp hp0
          have hu0 : u0 = .posinf := hup u0 (List.mem_cons_self _ _)
          subst hu0
          have hstep : furthestGo (F.fin pq :: ps) (l0 :: ls) (.posinf :: us) =
              (furthestAxis (F.fin pq) l0 .posinf).add (furthestGo ps ls us) := rfl
          rw [hstep]
          have hax : furthestAxis (F.fin pq) l0 .posinf = .posinf := by
            rcases hlok l0 (List.mem_cons_self _ _) with rfl | ⟨q, rfl⟩
            · rfl
            · rfl
          rw [hax]
          cases n with
          | zero =>
            have h1 : ps = [] := by simpa using hpl
            have h2 : ls = [] := by simpa using hll
            have h3 : us = [] := by simpa using hul
            subst h1; subst h2; subst h3
            rfl
          | succ m =>
            rw [ih ps ls us hps (by simpa using hpl) (by simpa using hll)
              (by simpa using hul) (by omega)
              (fun v hv => hlok v (List.mem_cons_of_mem _ hv))
              (fun v hv => hup v (List.mem_cons_of_mem _ hv))]
            rfl

/-- An indexed element sits in every drop up to its index. -/
theorem getD_mem_drop {α : Type} (dflt : α) :
    ∀ (s : List α) (j m : Nat), j ≤ m → m < s.length → s.getD m dflt ∈ s.drop j := by
  intro s
  induction s with
  | nil => intro j m _ hm; simp at hm
  | cons a as ih =>
    intro j m hjm hm
    cases j with
    | zero =>
      rw [List.drop_zero, List.getD_eq_getElem _ _ hm]
      exact List.getElem_mem hm
    | succ j =>
      cases m with
      | zero => omega
      | succ m =>
        rw [List.getD_cons_succ, List.drop_succ_cons]
        exact ih j m (by omega) (by simpa using hm)

/-- In a sorted slice of full-dimension points and sentinels, a sentinel in a
prefix forces every boundary coordinate at or past it to `+inf`. -/
theorem sorted_pad_coord (D d : Nat) (hd : d < D) (s : List Pt)
    (hpw : s.Pairwise (fun a b => ptLe d a b = true))
    (hcls : ∀ q ∈ s, q.length = D ∧ (ptFinite q ∨ q = pad D))
    (j m : Nat) (hjm : j ≤ m) (hm : m < s.length) (hpad : pad D ∈ s.take (j + 1)) :
    coord (s.getD m []) d = .posinf := by
  rw [List.mem_take_iff_getElem] at hpad
  obtain ⟨j2, hj2, hje⟩ := hpad
  have hj2m : j2 ≤ m := by omega
  have hj2len : j2 < s.length := by omega
  have hj2pad : s.getD j2 [] = pad D := by
    rw [List.getD_eq_getElem _ _ hj2len]
    exact hje
  have hple := sorted_ge_getD d s hpw j2 hj2len (s.getD m [])
    (getD_mem_drop [] s j2 m hj2m hm)
  rw [hj2pad, coord_pad D d hd] at hple
  have hmem : s.getD m [] ∈ s := by
    rw [List.getD_eq_getElem _ _ hm]
    exact List.getElem_mem hm
  rcases coord_class D d hd _ (hcls _ hmem).1 (hcls _ hmem).2 with ⟨q, hq⟩ | hq
  · rw [hq, show F.cmpLe F.posinf (F.fin q) = false from rfl] at hple
    exact absurd hple (by simp)
  · exact hq

/-- A prefix point of a sorted slice stays below the split value on the sort
axis. -/
theorem le_coord_test (D d : Nat) (hd : d < D) (s : List Pt)
    (hpw : s.Pairwise (fun a b => ptLe d a b = true))
    (hcls : ∀ q2 ∈ s, q2.length = D ∧ (ptFinite q2 ∨ q2 = pad D))
    (m : Nat) (hm : m + 1 < s.length)
    (q : Pt) (hq : q ∈ s.take (m + 1))
    (hqcls : q.length = D ∧ (ptFinite q ∨ q = pad D)) :
    F.le (coord q d)
      (F.avg (coord (s.getD m []) d) (coord (s.getD (m + 1) []) d)) = true := by
  have hm1 : m < s.length := by omega
  have hmm1 : s.getD m [] ∈ s := getD_mem_drop [] s 0 m (by omega) hm1
  have hmm2 : s.getD (m + 1) [] ∈ s := getD_mem_drop [] s 0 (m + 1) (by omega) hm
  have hcl1 := coord_class D d hd _ (hcls _ hmm1).1 (hcls _ hmm1).2
  have hcl2 := coord_class D d hd _ (hcls _ hmm2).1 (hcls _ hmm2).2
  have hclq := coord_class D d hd q hqcls.1 hqcls.2
  have hcmp1 := sorted_le_getD d s hpw m hm1 q hq
  have hcmp12 := sorted_ge_getD d s hpw m hm1 (s.getD (m + 1) [])
    (getD_mem_drop [] s m (m + 1) (by omega) hm)
  exact F.le_trans _ _ _
    (cmpLe_to_le _ _ (classB_of_class _ hclq) (classB_of_class _ hcl1) hcmp1)
    (le_avg_left _ _ (classB_of_class _ hcl1) (classB_of_class _ hcl2) hcmp12)

/-- A suffix point of a sorted slice stays above the split value on the sort
axis. -/
theorem test_le_coord (D d : Nat) (hd : d < D) (s : List Pt)
    (hpw : s.Pairwise (fun a b => ptLe d a b = true))
    (hcls : ∀ q2 ∈ s, q2.length = D ∧ (ptFinite q2 ∨ q2 = pad D))
    (m : Nat) (hm : m + 1 < s.length)
    (q : Pt) (hq : q ∈ s.drop (m + 1))
    (hqcls : q.length = D ∧ (ptFinite q ∨ q = pad D)) :
    F.le (F.avg (coord (s.getD m []) d) (coord (s.getD (m + 1) []) d))
      (coord q d) = true := by
  have hm1 : m < s.length := by omega
  have hmm1 : s.getD m [] ∈ s := getD_mem_drop [] s 0 m (by omega) hm1
  have hmm2 : s.getD (m + 1) [] ∈ s := getD_mem_drop [] s 0 (m + 1) (by omega) hm
  have hcl1 := coord_class D d hd _ (hcls _ hmm1).1 (hcls _ hmm1).2
  have hcl2 := coord_class D d hd _ (hcls _ hmm2).1 (hcls _ hmm2).2
  have hclq := coord_class D d hd q hqcls.1 hqcls.2
  have hcmp2 := sorted_ge_getD d s hpw (m + 1) hm q hq
  have hcmp12 := sorted_ge_getD d s hpw m hm1 (s.getD (m + 1) [])
    (getD_mem_drop [] s m (m + 1) (by omega) hm)
  exact F.le_trans _ _ _
    (avg_le_right _ _ (classB_of_class _ hcl1) (classB_of_class _ hcl2) hcmp12)
    (cmpLe_to_le _ _ (classB_of_class _ hcl2) (classB_of_class _ hclq) hcmp2)

/-- Core soundness of the affordance build with minimum radius `0`: if some
input point `p` lies strictly within the query radius of `x` and is still in
the candidate set, the scan of the affordance list reached by the descent of
`x` reports a hit.  The carried invariants: the slice is a power of two of
full-dimension points or sentinels, finite slice points lie in the working
box, a sentinel in the slice forces an uncapped box, the box bounds are
descent-legal, and `x` lies in the box. -/
theorem aff_scan_sound (D : Nat) (hD : 0 < D) (rsqmax : F) (r : Dy)
    (hrmax : F.le (.fin r) rsqmax = true)
    (x : Pt) (hxf : ptFinite x) (hxlen : x.length = D)
    (p : Pt) (hpf : ptFinite p) (hplen : p.length = D)
    (hnear : dsqQ (ptQ p) (ptQ x) < r.toQ) :
    ∀ (k : Nat) (pts : List Pt) (d i : Nat) (cands : List Pt) (lo up : Pt),
      pts.length = 2 ^ k → d < D → i % D = d →
      (∀ q ∈ pts, q.length = D ∧ (ptFinite q ∨ q = pad D)) →
      (∀ q ∈ pts, ptFinite q → inVolP lo q up) →
      ((∃ q ∈ pts, q = pad D) → ∀ v ∈ up, v = F.posinf) →
      p ∈ cands →
      inVolP lo x up →
      lowerOK lo → upperOK up → lo.length = D → up.length = D →
      ((descendLeaf D (buildAff D (.fin Dy.zero, rsqmax) k pts d cands ⟨lo, up⟩) x i).any
        fun q => (distsq q x).le (.fin r)) = true := by
  intro k
  induction k with
  | zero =>
    intro pts d i cands lo up hlen hd hid hcls hbox hpads hpc hvx hlok hupok hlol hupl
    cases pts with
    | nil => simp at hlen
    | cons c rest =>
      have hrnil : rest = [] := by simpa using hlen
      subst hrnil
      show (leafList (.fin Dy.zero, rsqmax) ⟨lo, up⟩ c cands).any
        (fun q => (distsq q x).le (.fin r)) = true
      have hccls := hcls c (List.mem_cons_self _ _)
      obtain ⟨hclf, hc1, hc2⟩ := closest_props p x lo up hpf hxf
        (by rw [hplen, hxlen]) hvx
      have hcloselen : (closestPt p lo up).length = D := by
        rw [closestPt_length p lo up (by rw [hplen, hlol]) (by rw [hlol, hupl]), hplen]
      obtain ⟨w, hw, hwq⟩ := distsq_toQ p (closestPt p lo up) hpf hclf
      have hwr : w.toQ < r.toQ := by
        rw [hwq]
        exact lt_of_le_of_lt hc2 hnear
      have hb2 : (distsq p (closestPt p lo up)).lt rsqmax = true := by
        rcases rsqmax_cases rsqmax r hrmax with rfl | ⟨m2, rfl, hm2⟩
        · rw [hw]; rfl
        · rw [hw, F.lt_fin_iff]
          exact lt_of_lt_of_le hwr hm2
      by_cases hAB : ptEqb c p = true
      · obtain ⟨hcf, hcq, hclen⟩ := ptEqb_toQ c p hAB hpf
        refine scan_hit x r _ c (mem_leafList_center _ _ _ _) hcf hxf ?_
        rw [hcq]
        exact le_of_lt hnear
      · have hABf : ptEqb c p = false := by
          cases hb : ptEqb c p with
          | false => rfl
          | true => exact absurd hb hAB
        have hb1 : (!(ptEqb c p)) = true := by rw [hABf]; rfl
        rcases hccls.2 with hcf | hcpad
        · obtain ⟨u0, hu0, hu0q⟩ := distsq_toQ c (closestPt p lo up) hcf hclf
          by_cases hcz : u0.toQ ≤ 0
          · have hz0 : dsqQ (ptQ c) (ptQ (closestPt p lo up)) = 0 :=
              le_antisymm (by rw [← hu0q]; exact hcz) (dsqQ_nonneg _ _)
            have hceq : ptQ c = ptQ (closestPt p lo up) :=
              dsqQ_eq_zero _ _ (by rw [ptQ_length, ptQ_length, hccls.1, hcloselen]) hz0
            refine scan_hit x r _ c (mem_leafList_center _ _ _ _) hcf hxf ?_
            rw [hceq]
            exact le_of_lt (lt_of_le_of_lt hc1 hnear)
          · have hb4 : (F.fin Dy.zero).lt (distsq c (closestPt p lo up)) = true := by
              rw [hu0, F.lt_fin_iff, Dy.toQ_zero]
              push_neg at hcz
              exact hcz
            rcases furthest_props c x lo up hcf hxf (by rw [hccls.1, hxlen]) hvx with
              hfp | ⟨v, hfv, hvb⟩
            · have hb3 : (distsq p (closestPt p lo up)).lt (furthestGo c lo up) = true := by
                rw [hw, hfp]; rfl
              exact scan_hit x r _ p (mem_leafList_retained _ _ _ _ p
                (List.mem_filter.mpr ⟨hpc, by
                  rw [leafRetain_eq]
                  simp only [Bool.and_eq_true]
                  exact ⟨⟨⟨hb1, hb2⟩, hb3⟩, hb4⟩⟩)) hpf hxf (le_of_lt hnear)
            · by_cases hb3q : w.toQ < v.toQ
              · have hb3 : (distsq p (closestPt p lo up)).lt (furthestGo c lo up) = true := by
                  rw [hw, hfv, F.lt_fin_iff]
                  exact hb3q
                exact scan_hit x r _ p (mem_leafList_retained _ _ _ _ p
                  (List.mem_filter.mpr ⟨hpc, by
                    rw [leafRetain_eq]
                    simp only [Bool.and_eq_true]
                    exact ⟨⟨⟨hb1, hb2⟩, hb3⟩, hb4⟩⟩)) hpf hxf (le_of_lt hnear)
              · push_neg at hb3q
                refine scan_hit x r _ c (mem_leafList_center _ _ _ _) hcf hxf ?_
                exact le_of_lt (lt_of_le_of_lt hvb (lt_of_le_of_lt hb3q hwr))
        · subst hcpad
          have hb4 : (F.fin Dy.zero).lt (distsq (pad D) (closestPt p lo up)) = true := by
            rw [distsq_pad D (closestPt p lo up) hclf hcloselen hD]
            rfl
          have hb3 : (distsq p (closestPt p lo up)).lt (furthestGo (pad D) lo up) = true := by
            rw [furthestGo_pad D lo up hlol hupl hlok hD, hw]
            rfl
          exact scan_hit x r _ p (mem_leafList_retained _ _ _ _ p
            (List.mem_filter.mpr ⟨hpc, by
              rw [leafRetain_eq]
              simp only [Bool.and_eq_true]
              exact ⟨⟨⟨hb1, hb2⟩, hb3⟩, hb4⟩⟩)) hpf hxf (le_of_lt hnear)
  | succ k ih =>
    intro pts d i cands lo up hlen hd hid hcls hbox hpads hpc hvx hlok hupok hlol hupl
    have hp2 : 0 < 2 ^ k := pow_pos (by norm_num) k
    have h2 : 2 ^ (k + 1) = 2 ^ k * 2 := pow_succ 2 k
    have hhalf : pts.length / 2 = 2 ^ k := by omega
    rw [buildAff_node D (.fin Dy.zero, rsqmax) k pts d cands lo up (by omega),
      median_partition_fst, median_partition_snd, hhalf]
    have hperm := sortBy_perm (ptLe d) pts
    have hmm : ∀ q : Pt, q ∈ sortBy (ptLe d) pts ↔ q ∈ pts := fun q => hperm.mem_iff
    have hslen : (sortBy (ptLe d) pts).length = 2 ^ (k + 1) := by
      rw [sortBy_length, hlen]
    have hpw := sortBy_pairwise (ptLe d)
      (fun a b c hab hbc => F.cmpLe_trans _ _ _ hab hbc)
      (fun a b => F.cmpLe_total _ _) pts
    have hcls' : ∀ q ∈ sortBy (ptLe d) pts, q.length = D ∧ (ptFinite q ∨ q = pad D) :=
      fun q hq => hcls q ((hmm q).mp hq)
    have hone : 2 ^ k - 1 + 1 = 2 ^ k := by omega
    have hmid1mem : (sortBy (ptLe d) pts).getD (2 ^ k - 1) [] ∈ sortBy (ptLe d) pts :=
      getD_mem_drop [] _ 0 (2 ^ k - 1) (by omega) (by omega)
    have hmid2mem : (sortBy (ptLe d) pts).getD (2 ^ k) [] ∈ sortBy (ptLe d) pts :=
      getD_mem_drop [] _ 0 (2 ^ k) (by omega) (by omega)
    have hcl1 := coord_class D d hd _ (hcls' _ hmid1mem).1 (hcls' _ hmid1mem).2
    have hcl2 := coord_class D d hd _ (hcls' _ hmid2mem).1 (hcls' _ hmid2mem).2
    have htcls := avg_class _ _ hcl1 hcl2
    obtain ⟨xd, hxd⟩ := ptFinite_coord x hxf D d hxlen hd
    have hmod : (i + 1) % D = (d + 1) % D := by
      conv_lhs => rw [Nat.add_mod, hid]
      conv_rhs => rw [Nat.add_mod, Nat.mod_eq_of_lt hd]
    rw [descendLeaf, hid, hxd]
    split_ifs with hlt
    · have hxin : inVolP lo x (up.set d (F.avg (coord ((sortBy (ptLe d) pts).getD (2 ^ k - 1) []) d) (coord ((sortBy (ptLe d) pts).getD (2 ^ k) []) d))) := by
        refine inVolP_set_upper lo x up d _ hvx ?_ (by omega)
        show F.le (coord x d) _ = true
        rw [hxd]
        exact F.le_of_lt _ _ hlt
      have htakelen : ((sortBy (ptLe d) pts).take (2 ^ k)).length = 2 ^ k := by
        rw [List.length_take, hslen]
        omega
      have htcls' : ∀ q ∈ (sortBy (ptLe d) pts).take (2 ^ k),
          q.length = D ∧ (ptFinite q ∨ q = pad D) :=
        fun q hq => hcls' q (List.take_subset _ _ hq)
      have hboxL : ∀ q ∈ (sortBy (ptLe d) pts).take (2 ^ k), ptFinite q →
          inVolP lo q (up.set d (F.avg (coord ((sortBy (ptLe d) pts).getD (2 ^ k - 1) []) d) (coord ((sortBy (ptLe d) pts).getD (2 ^ k) []) d))) := by
        intro q hq hqf
        refine inVolP_set_upper lo q up d _
          (hbox q ((hmm q).mp (List.take_subset _ _ hq)) hqf) ?_
          (by rw [(htcls' q hq).1]; omega)
        show F.le (coord q d) _ = true
        have hle := le_coord_test D d hd (sortBy (ptLe d) pts) hpw hcls' (2 ^ k - 1)
          (by omega) q (by rw [hone]; exact hq) (htcls' q hq)
        rw [hone] at hle
        exact hle
      have hpadsL : (∃ q ∈ (sortBy (ptLe d) pts).take (2 ^ k), q = pad D) →
          ∀ v ∈ up.set d (F.avg (coord ((sortBy (ptLe d) pts).getD (2 ^ k - 1) []) d) (coord ((sortBy (ptLe d) pts).getD (2 ^ k) []) d)), v = F.posinf := by
        rintro ⟨q, hq, rfl⟩ v hv
        have hc1p : coord ((sortBy (ptLe d) pts).getD (2 ^ k - 1) []) d = .posinf :=
          sorted_pad_coord D d hd _ hpw hcls' (2 ^ k - 1) (2 ^ k - 1) le_rfl
            (by omega) (by rw [hone]; exact hq)
        have hc2p : coord ((sortBy (ptLe d) pts).getD (2 ^ k) []) d = .posinf :=
          sorted_pad_coord D d hd _ hpw hcls' (2 ^ k - 1) (2 ^ k) (by omega)
            (by omega) (by rw [hone]; exact hq)
        rcases List.mem_or_eq_of_mem_set hv with hv | rfl
        · exact hpads ⟨pad D, (hmm _).mp (List.take_subset _ _ hq), rfl⟩ v hv
        · rw [hc1p, hc2p]
          rfl
      have hupokL : upperOK (up.set d (F.avg (coord ((sortBy (ptLe d) pts).getD (2 ^ k - 1) []) d) (coord ((sortBy (ptLe d) pts).getD (2 ^ k) []) d))) := upperOK_set up d _ hupok htcls
      by_cases hpr : (F.fin Dy.zero).lt (furthestGo p lo (up.set d (F.avg (coord ((sortBy (ptLe d) pts).getD (2 ^ k - 1) []) d) (coord ((sortBy (ptLe d) pts).getD (2 ^ k) []) d)))) = true
      · have hd2 : (distsq (closestPt p lo (up.set d (F.avg (coord ((sortBy (ptLe d) pts).getD (2 ^ k - 1) []) d) (coord ((sortBy (ptLe d) pts).getD (2 ^ k) []) d)))) p).lt rsqmax = true := by
          obtain ⟨hclf, hc1, hc2⟩ := closest_props p x lo (up.set d (F.avg (coord ((sortBy (ptLe d) pts).getD (2 ^ k - 1) []) d) (coord ((sortBy (ptLe d) pts).getD (2 ^ k) []) d))) hpf hxf
            (by rw [hplen, hxlen]) hxin
          obtain ⟨w, hw, hwq⟩ := distsq_toQ (closestPt p lo (up.set d (F.avg (coord ((sortBy (ptLe d) pts).getD (2 ^ k - 1) []) d) (coord ((sortBy (ptLe d) pts).getD (2 ^ k) []) d)))) p hclf hpf
          have hwr : w.toQ < r.toQ := by
            rw [hwq, dsqQ_comm]
            exact lt_of_le_of_lt hc2 hnear
          rcases rsqmax_cases rsqmax r hrmax with rfl | ⟨m2, rfl, hm2⟩
          · rw [hw]; rfl
          · rw [hw, F.lt_fin_iff]
            exact lt_of_lt_of_le hwr hm2
        have hpc1 : p ∈ cands.filter (nodeRetain (.fin Dy.zero, rsqmax)
            ⟨lo, up.set d (F.avg (coord ((sortBy (ptLe d) pts).getD (2 ^ k - 1) []) d) (coord ((sortBy (ptLe d) pts).getD (2 ^ k) []) d))⟩) := by
          refine List.mem_filter.mpr ⟨hpc, ?_⟩
          rw [nodeRetain_eq]
          simp only [Bool.and_eq_true]
          exact ⟨hpr, hd2⟩
        exact ih _ ((d + 1) % D) (i + 1) _ lo (up.set d (F.avg (coord ((sortBy (ptLe d) pts).getD (2 ^ k - 1) []) d) (coord ((sortBy (ptLe d) pts).getD (2 ^ k) []) d))) htakelen
          (Nat.mod_lt _ hD) hmod htcls' hboxL hpadsL hpc1 hxin hlok hupokL hlol
          (by rw [List.length_set]; exact hupl)
      · have hz : (F.fin Dy.zero).lt (furthestGo p lo (up.set d (F.avg (coord ((sortBy (ptLe d) pts).getD (2 ^ k - 1) []) d) (coord ((sortBy (ptLe d) pts).getD (2 ^ k) []) d)))) = false := by
          cases hb : (F.fin Dy.zero).lt (furthestGo p lo (up.set d (F.avg (coord ((sortBy (ptLe d) pts).getD (2 ^ k - 1) []) d) (coord ((sortBy (ptLe d) pts).getD (2 ^ k) []) d)))) with
          | false => rfl
          | true => exact absurd hb hpr
        have hnopad : ∀ q ∈ (sortBy (ptLe d) pts).take (2 ^ k), ptFinite q := by
          intro q hq
          rcases (htcls' q hq).2 with hf | hqpad
          · exact hf
          · exfalso
            have hupall := hpadsL ⟨q, hq, hqpad⟩
            have hpos := furthestGo_posinf_up D p lo (up.set d (F.avg (coord ((sortBy (ptLe d) pts).getD (2 ^ k - 1) []) d) (coord ((sortBy (ptLe d) pts).getD (2 ^ k) []) d))) hpf hplen hlol
              (by rw [List.length_set]; exact hupl) hD hlok hupall
            rw [hpos] at hz
            exact absurd hz (by decide)
        obtain ⟨c, hcmem, hcin⟩ := descend_center_mem D (.fin Dy.zero, rsqmax) x k
          ((sortBy (ptLe d) pts).take (2 ^ k)) ((d + 1) % D) (i + 1)
          (cands.filter (nodeRetain (.fin Dy.zero, rsqmax) ⟨lo, up.set d (F.avg (coord ((sortBy (ptLe d) pts).getD (2 ^ k - 1) []) d) (coord ((sortBy (ptLe d) pts).getD (2 ^ k) []) d))⟩))
          ⟨lo, up.set d (F.avg (coord ((sortBy (ptLe d) pts).getD (2 ^ k - 1) []) d) (coord ((sortBy (ptLe d) pts).getD (2 ^ k) []) d))⟩ htakelen
        have hcf : ptFinite c := hnopad c hcmem
        have hcbox : inVolP lo c (up.set d (F.avg (coord ((sortBy (ptLe d) pts).getD (2 ^ k - 1) []) d) (coord ((sortBy (ptLe d) pts).getD (2 ^ k) []) d))) := hboxL c hcmem hcf
        have hxq : ptQ x = ptQ p := furthest_eq_zero p x lo (up.set d (F.avg (coord ((sortBy (ptLe d) pts).getD (2 ^ k - 1) []) d) (coord ((sortBy (ptLe d) pts).getD (2 ^ k) []) d))) hpf hxf
          (by rw [hplen, hxlen]) hxin hz
        have hcq : ptQ c = ptQ p := furthest_eq_zero p c lo (up.set d (F.avg (coord ((sortBy (ptLe d) pts).getD (2 ^ k - 1) []) d) (coord ((sortBy (ptLe d) pts).getD (2 ^ k) []) d))) hpf hcf
          (by rw [hplen, (htcls' c hcmem).1]) hcbox hz
        have hr0 : 0 < r.toQ := lt_of_le_of_lt (dsqQ_nonneg _ _) hnear
        refine scan_hit x r _ c hcin hcf hxf ?_
        rw [hcq, hxq, dsqQ_self]
        exact le_of_lt hr0
    · have htfin : ∃ tq, (F.avg (coord ((sortBy (ptLe d) pts).getD (2 ^ k - 1) []) d) (coord ((sortBy (ptLe d) pts).getD (2 ^ k) []) d)) = F.fin tq := by
        rcases htcls with ⟨tq, htq⟩ | htq
        · exact ⟨tq, htq⟩
        · exfalso
          rw [htq] at hlt
          exact hlt rfl
      obtain ⟨tq, htq⟩ := htfin
      have hxt : tq.toQ ≤ xd.toQ := by
        by_contra hcon
        push_neg at hcon
        rw [htq] at hlt
        exact hlt ((F.lt_fin_iff xd tq).mpr hcon)
      have hletx : F.le (F.avg (coord ((sortBy (ptLe d) pts).getD (2 ^ k - 1) []) d) (coord ((sortBy (ptLe d) pts).getD (2 ^ k) []) d)) (coord x d) = true := by
        rw [htq, hxd, F.le_fin_iff]
        exact hxt
      have hxin : inVolP (lo.set d (F.avg (coord ((sortBy (ptLe d) pts).getD (2 ^ k - 1) []) d) (coord ((sortBy (ptLe d) pts).getD (2 ^ k) []) d))) x up :=
        inVolP_set_lower lo x up d _ hvx hletx (by omega)
      have hdroplen : ((sortBy (ptLe d) pts).drop (2 ^ k)).length = 2 ^ k := by
        rw [List.length_drop, hslen]
        omega
      have hdcls' : ∀ q ∈ (sortBy (ptLe d) pts).drop (2 ^ k),
          q.length = D ∧ (ptFinite q ∨ q = pad D) :=
        fun q hq => hcls' q (List.drop_subset _ _ hq)
      have hboxR : ∀ q ∈ (sortBy (ptLe d) pts).drop (2 ^ k), ptFinite q →
          inVolP (lo.set d (F.avg (coord ((sortBy (ptLe d) pts).getD (2 ^ k - 1) []) d) (coord ((sortBy (ptLe d) pts).getD (2 ^ k) []) d))) q up := by
        intro q hq hqf
        refine inVolP_set_lower lo q up d _
          (hbox q ((hmm q).mp (List.drop_subset _ _ hq)) hqf) ?_
          (by rw [(hdcls' q hq).1]; omega)
        have hle := test_le_coord D d hd (sortBy (ptLe d) pts) hpw hcls' (2 ^ k - 1)
          (by omega) q (by rw [hone]; exact hq) (hdcls' q hq)
        rw [hone] at hle
        exact hle
      have hpadsR : (∃ q ∈ (sortBy (ptLe d) pts).drop (2 ^ k), q = pad D) →
          ∀ v ∈ up, v = F.posinf := by
        rintro ⟨q, hq, rfl⟩
        exact hpads ⟨pad D, (hmm _).mp (List.drop_subset _ _ hq), rfl⟩
      have hlokR : lowerOK (lo.set d (F.avg (coord ((sortBy (ptLe d) pts).getD (2 ^ k - 1) []) d) (coord ((sortBy (ptLe d) pts).getD (2 ^ k) []) d))) := lowerOK_set lo d _ hlok ⟨tq, htq⟩
      by_cases hpr : (F.fin Dy.zero).lt (furthestGo p (lo.set d (F.avg (coord ((sortBy (ptLe d) pts).getD (2 ^ k - 1) []) d) (coord ((sortBy (ptLe d) pts).getD (2 ^ k) []) d))) up) = true
      · have hd2 : (distsq (closestPt p (lo.set d (F.avg (coord ((sortBy (ptLe d) pts).getD (2 ^ k - 1) []) d) (coord ((sortBy (ptLe d) pts).getD (2 ^ k) []) d))) up) p).lt rsqmax = true := by
          obtain ⟨hclf, hc1, hc2⟩ := closest_props p x (lo.set d (F.avg (coord ((sortBy (ptLe d) pts).getD (2 ^ k - 1) []) d) (coord ((sortBy (ptLe d) pts).getD (2 ^ k) []) d))) up hpf hxf
            (by rw [hplen, hxlen]) hxin
          obtain ⟨w, hw, hwq⟩ := distsq_toQ (closestPt p (lo.set d (F.avg (coord ((sortBy (ptLe d) pts).getD (2 ^ k - 1) []) d) (coord ((sortBy (ptLe d) pts).getD (2 ^ k) []) d))) up) p hclf hpf
          have hwr : w.toQ < r.toQ := by
            rw [hwq, dsqQ_comm]
            exact lt_of_le_of_lt hc2 hnear
          rcases rsqmax_cases rsqmax r hrmax with rfl | ⟨m2, rfl, hm2⟩
          · rw [hw]; rfl
          · rw [hw, F.lt_fin_iff]
            exact lt_of_lt_of_le hwr hm2
        have hpc1 : p ∈ cands.filter (nodeRetain (.fin Dy.zero, rsqmax)
            ⟨lo.set d (F.avg (coord ((sortBy (ptLe d) pts).getD (2 ^ k - 1) []) d) (coord ((sortBy (ptLe d) pts).getD (2 ^ k) []) d)), up⟩) := by
          refine List.mem_filter.mpr ⟨hpc, ?_⟩
          rw [nodeRetain_eq]
          simp only [Bool.and_eq_true]
          exact ⟨hpr, hd2⟩
        exact ih _ ((d + 1) % D) (i + 1) _ (lo.set d (F.avg (coord ((sortBy (ptLe d) pts).getD (2 ^ k - 1) []) d) (coord ((sortBy (ptLe d) pts).getD (2 ^ k) []) d))) up hdroplen
          (Nat.mod_lt _ hD) hmod hdcls' hboxR hpadsR hpc1 hxin hlokR hupok
          (by rw [List.length_set]; exact hlol) hupl
      · have hz : (F.fin Dy.zero).lt (furthestGo p (lo.set d (F.avg (coord ((sortBy (ptLe d) pts).getD (2 ^ k - 1) []) d) (coord ((sortBy (ptLe d) pts).getD (2 ^ k) []) d))) up) = false := by
          cases hb : (F.fin Dy.zero).lt (furthestGo p (lo.set d (F.avg (coord ((sortBy (ptLe d) pts).getD (2 ^ k - 1) []) d) (coord ((sortBy (ptLe d) pts).getD (2 ^ k) []) d))) up) with
          | false => rfl
          | true => exact absurd hb hpr
        have hnopad : ∀ q ∈ (sortBy (ptLe d) pts).drop (2 ^ k), ptFinite q := by
          intro q hq
          rcases (hdcls' q hq).2 with hf | hqpad
          · exact hf
          · exfalso
            have hupall := hpadsR ⟨q, hq, hqpad⟩
            have hpos := furthestGo_posinf_up D p (lo.set d (F.avg (coord ((sortBy (ptLe d) pts).getD (2 ^ k - 1) []) d) (coord ((sortBy (ptLe d) pts).getD (2 ^ k) []) d))) up hpf hplen
              (by rw [List.length_set]; exact hlol) hupl hD hlokR hupall
            rw [hpos] at hz
            exact absurd hz (by decide)
        obtain ⟨c, hcmem, hcin⟩ := descend_center_mem D (.fin Dy.zero, rsqmax) x k
          ((sortBy (ptLe d) pts).drop (2 ^ k)) ((d + 1) % D) (i + 1)
          (cands.filter (nodeRetain (.fin Dy.zero, rsqmax) ⟨lo.set d (F.avg (coord ((sortBy (ptLe d) pts).getD (2 ^ k - 1) []) d) (coord ((sortBy (ptLe d) pts).getD (2 ^ k) []) d)), up⟩))
          ⟨lo.set d (F.avg (coord ((sortBy (ptLe d) pts).getD (2 ^ k - 1) []) d) (coord ((sortBy (ptLe d) pts).getD (2 ^ k) []) d)), up⟩ hdroplen
        have hcf : ptFinite c := hnopad c hcmem
        have hcbox : inVolP (lo.set d (F.avg (coord ((sortBy (ptLe d) pts).getD (2 ^ k - 1) []) d) (coord ((sortBy (ptLe d) pts).getD (2 ^ k) []) d))) c up := hboxR c hcmem hcf
        have hxq : ptQ x = ptQ p := furthest_eq_zero p x (lo.set d (F.avg (coord ((sortBy (ptLe d) pts).getD (2 ^ k - 1) []) d) (coord ((sortBy (ptLe d) pts).getD (2 ^ k) []) d))) up hpf hxf
          (by rw [hplen, hxlen]) hxin hz
        have hcq : ptQ c = ptQ p := furthest_eq_zero p c (lo.set d (F.avg (coord ((sortBy (ptLe d) pts).getD (2 ^ k - 1) []) d) (coord ((sortBy (ptLe d) pts).getD (2 ^ k) []) d))) up hpf hcf
          (by rw [hplen, (hdcls' c hcmem).1]) hcbox hz
        have hr0 : 0 < r.toQ := lt_of_le_of_lt (dsqQ_nonneg _ _) hnear
        refine scan_hit x r _ c hcin hcf hxf ?_
        rw [hcq, hxq, dsqQ_self]
        exact le_of_lt hr0

/-- C1 (amended): affordance soundness holds with the boundary excluded and a
zero minimum radius: for a tree built with rsq_range = (0, rsq_max) from
finite full-dimension points, a finite query center x, and a query radius
with rsq_min <= r^2 <= rsq_max, if some input point p has
distsq(p, x) STRICTLY below r^2, then collides(&x, r^2) returns true. -/
theorem c1_amended (D : Nat) (ps : List Pt) (rsqmax : F) (r : Dy)
    (t : AffordanceTree D) (hD : 0 < D)
    (hps : ∀ q ∈ ps, q.length = D ∧ ptFinite q)
    (ht : AffordanceTree.new D ps (.fin Dy.zero, rsqmax) = some t)
    (x : Pt) (hxf : ptFinite x) (hxlen : x.length = D)
    (p : Pt) (hp : p ∈ ps)
    (hnear : F.lt (distsq p x) (.fin r) = true)
    (hr : F.le (.fin r) rsqmax = true) :
    t.collides x (.fin r) = some true := by
  have hpf : ptFinite p := (hps p hp).2
  have hplen : p.length = D := (hps p hp).1
  obtain ⟨w, hw, hwq⟩ := distsq_toQ p x hpf hxf
  rw [hw, F.lt_fin_iff] at hnear
  have hnearQ : dsqQ (ptQ p) (ptQ x) < r.toQ := by rw [← hwq]; exact hnear
  have h1 : F.le (F.fin Dy.zero) (F.fin r) = true := by
    rw [F.le_fin_iff, Dy.toQ_zero]
    exact le_of_lt (lt_of_le_of_lt (dsqQ_nonneg _ _) hnearQ)
  have ht2 := ht
  by_cases hD255 : D < 255
  · rw [AffordanceTree.new, if_pos hD255] at ht
    injection ht with ht
    subst ht
    rw [collides_eq_scan D ps (.fin Dy.zero, rsqmax) _ ht2 x (.fin r) h1 hr]
    refine congrArg some ?_
    have hcls : ∀ q ∈ padded D ps, q.length = D ∧ (ptFinite q ∨ q = pad D) := by
      intro q hq
      rcases List.mem_append.mp hq with hq | hq
      · exact ⟨(hps q hq).1, Or.inl (hps q hq).2⟩
      · rw [(List.mem_replicate.mp hq).2]
        exact ⟨by simp [pad], Or.inr rfl⟩
    have hbox : ∀ q ∈ padded D ps, ptFinite q →
        inVolP (List.replicate D F.neginf) q (List.replicate D F.posinf) := by
      intro q hq hqf
      exact inVolP_root q D (hcls q hq).1
        (fun v hv => Or.inl ((List.all_eq_true.mp hqf) v hv))
    exact aff_scan_sound D hD rsqmax r hr x hxf hxlen p hpf hplen hnearQ
      (clog2 ps.length) (padded D ps) 0 0 (padded D ps)
      (List.replicate D F.neginf) (List.replicate D F.posinf)
      (padded_length D ps) hD (Nat.zero_mod D)
      hcls hbox
      (fun _ v hv => (List.mem_replicate.mp hv).2)
      (List.mem_append_left _ hp)
      (inVolP_root x D hxlen (fun v hv => Or.inl ((List.all_eq_true.mp hxf) v hv)))
      (fun v hv => Or.inl (List.mem_replicate.mp hv).2)
      (fun v hv => Or.inl (List.mem_replicate.mp hv).2)
      (by simp) (by simp)
  · rw [AffordanceTree.new, if_neg hD255] at ht
    exact absurd ht (by simp)

/-- Witness for the amended C1 at a concrete input: a 1-dimensional two-point
tree built with rsq_range (0, 4), queried at an input point with squared
radius 1. -/
theorem c1_amended_witness :
    ((AffordanceTree.new 1 [[fI 0], [fI 2]] (.fin Dy.zero, fI 4)).getD
        (dfltAff 1)).collides [fI 0] (.fin (Dy.ofInt 1)) = some true :=
  c1_amended 1 [[fI 0], [fI 2]] (fI 4) (Dy.ofInt 1) _ (by decide) (by decide) rfl
    [fI 0] (by decide) (by decide) [fI 0] (by decide) (by decide) (by decide)

end Captree
